import Mathlib

/-!
Verification of the Runx task-orchestration core: graph resolution
(collect_required_tasks, topological_sort, calculate_execution_levels),
input-hash caching with TTL, retry with flaky tracking, flakiness scoring,
affected-task resolution and background-process teardown, as a shallow
embedding of the Rust sources in src/.

Machine integers are modelled as Nat/Int (no overflow is reachable in the
modelled code paths), SQLite rows as Lean structures over association lists,
wall-clock time as an abstract Int (seconds), SHA-256 digests by their input
streams (equal streams give equal digests), and the external glob matcher /
file system / process spawner as explicit function parameters.
-/

namespace Runx

/-- Task definition, the fields of config::Task used by the verified core
(src/src/config.rs).  The env map of the source is a HashMap; it is modelled
as an association list in some iteration order, which is exactly what the
hashing code observes. -/
structure Task where
  cmd : String
  cwd : Option String
  watch : List String
  depends_on : List String
  background : Bool
  category : Option String
  retry : Nat
  retry_delay_ms : Nat
  env : List (String × String)
  inputs : List String
deriving Repr, DecidableEq, Inhabited

/-- Configuration task map (config.tasks), an association list from task name
to task.  The source uses a HashMap with unique keys; iteration order of the
map is modelled as list order. -/
abbrev Config := List (String × Task)

/-- Models Config::get_task: look up a task by name (src/src/config.rs). -/
def getTask (cfg : Config) (name : String) : Option Task :=
  (cfg.find? (fun p => p.1 == name)).map Prod.snd

/-- Dependency list of a named task; empty when the task is absent.  This is
the `if let Some(task) = config.get_task(name)` access pattern used by the
graph code (src/src/graph.rs). -/
def depsOf (cfg : Config) (name : String) : List String :=
  match getTask cfg name with
  | some t => t.depends_on
  | none => []

/-- Result of one executed task (src/src/task.rs TaskResult). -/
structure TaskResult where
  name : String
  success : Bool
  duration_ms : Nat
  category : Option String
deriving Repr, DecidableEq

/-- Retry configuration (src/src/execution/retry.rs RetryConfig). -/
structure RetryConfig where
  max_retries : Nat
  delay_ms : Nat
  exponential_backoff : Bool
deriving Repr, DecidableEq

/-- Models RetryConfig::from(&Task) (src/src/execution/retry.rs lines 30-38). -/
def retryConfigOfTask (t : Task) : RetryConfig :=
  { max_retries := t.retry, delay_ms := t.retry_delay_ms, exponential_backoff := false }

/-- Backoff delay before attempt number a (a ≥ 2), from the retry loop:
delay_ms * 2^(attempts - 2) under exponential backoff, else delay_ms
(src/src/execution/retry.rs lines 53-58). -/
def retryDelay (rc : RetryConfig) (a : Nat) : Nat :=
  if rc.exponential_backoff then rc.delay_ms * 2 ^ (a - 2) else rc.delay_ms

/-- Loop body of execute_with_retry (src/src/execution/retry.rs lines 41-96).
The process-execution collaborator is abstracted as an oracle exec giving the
TaskResult of the i-th attempt (1-based).  The Rust loop counts attempts
upward and breaks when attempts > max_retries; it is modelled structurally by
the number of retries still allowed (remaining = max_retries + 1 - attempt).
Returns the returned TaskResult together with the number of attempts made. -/
def execute_with_retry_go (exec : Nat → TaskResult) (attempt : Nat) :
    Nat → TaskResult × Nat
  | 0 => (exec attempt, attempt)
  | n + 1 =>
      let r := exec attempt
      if r.success then (r, attempt) else execute_with_retry_go exec (attempt + 1) n

/-- Models execute_with_retry (src/src/execution/retry.rs lines 41-96): run
attempts 1, 2, ... until one succeeds or max_retries retries are exhausted;
on exhaustion the last attempt's result is returned. -/
def execute_with_retry (exec : Nat → TaskResult) (rc : RetryConfig) : TaskResult × Nat :=
  execute_with_retry_go exec 1 rc.max_retries

lemma execute_with_retry_go_all_fail (exec : Nat → TaskResult)
    (hfail : ∀ i, (exec i).success = false) :
    ∀ n a, execute_with_retry_go exec a n = (exec (a + n), a + n) := by
  intro n
  induction n with
  | zero => intro a; simp [execute_with_retry_go]
  | succ n ih =>
      intro a
      simp only [execute_with_retry_go, hfail a, Bool.false_eq_true, if_false]
      rw [ih (a + 1)]
      have h : a + 1 + n = a + (n + 1) := by omega
      rw [h]

/-- C5: a task whose every attempt fails is attempted exactly
max_retries + 1 times (3 times for retry_count = 2) and execute_with_retry
returns the last attempt's result, not the first. -/
theorem execute_with_retry_exhaustion (exec : Nat → TaskResult) (rc : RetryConfig)
    (hfail : ∀ i, (exec i).success = false) :
    execute_with_retry exec rc = (exec (rc.max_retries + 1), rc.max_retries + 1) ∧
    (rc.max_retries = 2 → (execute_with_retry exec rc).2 = 3 ∧
      (execute_with_retry exec rc).1 = exec 3) := by
  have h := execute_with_retry_go_all_fail exec hfail rc.max_retries 1
  have h1 : execute_with_retry exec rc = (exec (rc.max_retries + 1), rc.max_retries + 1) := by
    rw [execute_with_retry, h, Nat.add_comm 1 rc.max_retries]
  refine ⟨h1, fun h2 => ?_⟩
  rw [h1, h2]
  exact ⟨rfl, rfl⟩

/-- Witness for C5 at a concrete always-failing oracle with retry_count 2. -/
theorem execute_with_retry_exhaustion_witness :
    execute_with_retry (fun i => ⟨"t", false, 10 * i, none⟩) ⟨2, 100, false⟩ =
      (⟨"t", false, 30, none⟩, 3) := by
  have h := execute_with_retry_exhaustion (fun i => ⟨"t", false, 10 * i, none⟩)
    ⟨2, 100, false⟩ (fun i => rfl)
  simpa using h.1

/-- Row of the test_history table written by Database::record_test_history
(src/src/db/flaky.rs lines 40-69). -/
structure HistoryRecord where
  test_name : String
  classname : Option String
  task_name : String
  status : String
  duration_ms : Option Int
  run_id : String
deriving Repr, DecidableEq

/-- Flaky information returned by execute_with_flaky_tracking
(src/src/execution/retry.rs FlakyInfo). -/
structure FlakyInfo where
  attempts : Nat
  passed_on_retry : Bool
  is_flaky : Bool
deriving Repr, DecidableEq

/-- History record written for one attempt by execute_with_flaky_tracking:
db.record_test_history(name, task.category, name, status, duration, run_id)
with status passed/failed from the attempt's result
(src/src/execution/retry.rs lines 137-148). -/
def mkHistoryRecord (name : String) (category : Option String) (runId : String)
    (r : TaskResult) : HistoryRecord :=
  { test_name := name, classname := category, task_name := name,
    status := if r.success then "passed" else "failed",
    duration_ms := some (r.duration_ms : Int), run_id := runId }

/-- Within-run flakiness over the per-attempt success list: more than one
attempt with both a pass and a fail present
(src/src/execution/retry.rs line 154). -/
def isFlakyResults (rs : List Bool) : Bool :=
  decide (rs.length > 1) && rs.any id && rs.any (fun b => !b)

/-- Loop body of execute_with_flaky_tracking (src/src/execution/retry.rs
lines 99-184), structured like execute_with_retry_go: remaining counts the
retries still allowed, results accumulates per-attempt successes, recs the
test-history rows written so far (recorded only when a database is present).
Returns the final TaskResult, FlakyInfo and the written history rows. -/
def execute_with_flaky_tracking_go (exec : Nat → TaskResult) (name : String)
    (category : Option String) (dbPresent : Bool) (runId : String) (attempt : Nat)
    (results : List Bool) (recs : List HistoryRecord) :
    Nat → TaskResult × FlakyInfo × List HistoryRecord
  | 0 =>
      let r := exec attempt
      let results' := results ++ [r.success]
      let recs' := if dbPresent then recs ++ [mkHistoryRecord name category runId r] else recs
      if r.success then
        (r, ⟨attempt, decide (attempt > 1), isFlakyResults results'⟩, recs')
      else
        (r, ⟨attempt, false, false⟩, recs')
  | n + 1 =>
      let r := exec attempt
      let results' := results ++ [r.success]
      let recs' := if dbPresent then recs ++ [mkHistoryRecord name category runId r] else recs
      if r.success then
        (r, ⟨attempt, decide (attempt > 1), isFlakyResults results'⟩, recs')
      else
        execute_with_flaky_tracking_go exec name category dbPresent runId (attempt + 1)
          results' recs' n

/-- Models execute_with_flaky_tracking (src/src/execution/retry.rs lines
99-184). -/
def execute_with_flaky_tracking (exec : Nat → TaskResult) (name : String)
    (category : Option String) (rc : RetryConfig) (dbPresent : Bool) (runId : String) :
    TaskResult × FlakyInfo × List HistoryRecord :=
  execute_with_flaky_tracking_go exec name category dbPresent runId 1 [] [] rc.max_retries

lemma execute_with_flaky_tracking_go_recs (exec : Nat → TaskResult) (name : String)
    (category : Option String) (runId : String) :
    ∀ n a results recs,
      let out := execute_with_flaky_tracking_go exec name category true runId a results recs n
      a ≤ out.2.1.attempts ∧
      out.2.2 = recs ++ (List.range (out.2.1.attempts + 1 - a)).map
        (fun i => mkHistoryRecord name category runId (exec (a + i))) := by
  intro n
  induction n with
  | zero =>
      intro a results recs
      simp only [execute_with_flaky_tracking_go]
      by_cases h : (exec a).success
      · simp [h, List.range_succ]
      · simp [h, List.range_succ]
  | succ n ih =>
      intro a results recs
      simp only [execute_with_flaky_tracking_go]
      by_cases h : (exec a).success
      · simp [h, List.range_succ]
      · have hf : (exec a).success = false := by simpa using h
        simp only [hf, Bool.false_eq_true, if_false, if_true]
        have hgo := ih (a + 1) (results ++ [false])
          (recs ++ [mkHistoryRecord name category runId (exec a)])
        refine ⟨by omega, ?_⟩
        rw [hgo.2, List.append_assoc]
        congr 1
        have hle := hgo.1
        set A := (execute_with_flaky_tracking_go exec name category true runId (a + 1)
          (results ++ [false])
          (recs ++ [mkHistoryRecord name category runId (exec a)]) n).2.1.attempts with hA
        have hk : A + 1 - a = (A + 1 - (a + 1)) + 1 := by omega
        rw [hk, List.range_succ_eq_map]
        simp [Function.comp_def, Nat.add_comm, Nat.add_left_comm, Nat.add_assoc]

/-- C7: when a persistence collaborator is present, execute_with_flaky_tracking
writes one test-history row per attempt — intermediate failures included — each
carrying that attempt's own passed/failed status and duration under the run id,
not just the last attempt's outcome. -/
theorem execute_with_flaky_tracking_records_every_attempt (exec : Nat → TaskResult)
    (name : String) (category : Option String) (rc : RetryConfig) (runId : String) :
    let out := execute_with_flaky_tracking exec name category rc true runId
    1 ≤ out.2.1.attempts ∧
    out.2.2 = (List.range out.2.1.attempts).map
      (fun i => mkHistoryRecord name category runId (exec (i + 1))) := by
  simp only [execute_with_flaky_tracking]
  have h := execute_with_flaky_tracking_go_recs exec name category runId rc.max_retries 1 [] []
  refine ⟨h.1, ?_⟩
  rw [h.2, List.nil_append]
  have hk : (execute_with_flaky_tracking_go exec name category true runId 1 [] []
      rc.max_retries).2.1.attempts + 1 - 1 =
      (execute_with_flaky_tracking_go exec name category true runId 1 [] []
      rc.max_retries).2.1.attempts := by omega
  rw [hk]
  apply List.map_congr_left
  intro i _
  rw [Nat.add_comm 1 i]

/-- Row of the flaky_tests table for one test name (src/src/db/flaky.rs
FlakyTest, the fields maintained by update_flaky_stats).  REAL scores are
modelled as exact rationals. -/
structure FlakyRow where
  pass_count : Nat
  fail_count : Nat
  total_runs : Nat
  flaky_score : ℚ
deriving Repr, DecidableEq

/-- Models Database::update_flaky_stats (src/src/db/flaky.rs lines 72-118):
the UPDATE branch increments pass/fail/total and recomputes
flaky_score = (pass_count + delta) / (total_runs + 1) * 100; the INSERT branch
creates the row with one run recorded and score 100 or 0. -/
def update_flaky_stats (row : Option FlakyRow) (isPass : Bool) : FlakyRow :=
  match row with
  | some r =>
      { pass_count := r.pass_count + (if isPass then 1 else 0)
        fail_count := r.fail_count + (if isPass then 0 else 1)
        total_runs := r.total_runs + 1
        flaky_score := ((r.pass_count : ℚ) + (if isPass then 1 else 0)) /
          ((r.total_runs : ℚ) + 1) * 100 }
  | none =>
      { pass_count := if isPass then 1 else 0
        fail_count := if isPass then 0 else 1
        total_runs := 1
        flaky_score := if isPass then 100 else 0 }

/-- Flaky_tests row after a sequence of record_test_history calls for a test,
each one applying update_flaky_stats (src/src/db/flaky.rs lines 40-69):
true means a passed attempt, false a failed one. -/
def flaky_row_of_history (h : List Bool) : Option FlakyRow :=
  h.foldl (fun acc s => some (update_flaky_stats acc s)) none

/-- Models Database::calculate_flaky_score (src/src/db/flaky.rs lines
240-253): without a row, or with total_runs = 0, the score is 100 (assumed
stable); otherwise pass_count / total_runs * 100. -/
def calculate_flaky_score (row : Option FlakyRow) : ℚ :=
  match row with
  | none => 100
  | some r => if r.total_runs = 0 then 100 else (r.pass_count : ℚ) / (r.total_runs : ℚ) * 100

/-- Flaky classification used by should_quarantine: a score strictly between
20 and 80 (src/src/execution/retry.rs line 200). -/
def is_flaky_classification (score : ℚ) : Bool :=
  decide (score > 20) && decide (score < 80)

lemma update_flaky_stats_score (row : Option FlakyRow) (s : Bool) :
    (update_flaky_stats row s).flaky_score =
      ((update_flaky_stats row s).pass_count : ℚ) /
        ((update_flaky_stats row s).total_runs : ℚ) * 100 := by
  cases row with
  | none => cases s <;> norm_num [update_flaky_stats]
  | some r => cases s <;> push_cast [update_flaky_stats] <;> ring_nf

lemma flaky_row_counts :
    ∀ (h : List Bool) (r : FlakyRow),
      (h.foldl (fun acc s => some (update_flaky_stats acc s)) (some r)) =
        some (h.foldl (fun a s => update_flaky_stats (some a) s) r) := by
  intro h
  induction h with
  | nil => intro r; rfl
  | cons s rest ih => intro r; simp only [List.foldl_cons]; exact ih _

lemma flaky_fold_counts :
    ∀ (h : List Bool) (r : FlakyRow),
      (h.foldl (fun a s => update_flaky_stats (some a) s) r).pass_count =
          r.pass_count + h.count true ∧
      (h.foldl (fun a s => update_flaky_stats (some a) s) r).total_runs =
          r.total_runs + h.length := by
  intro h
  induction h with
  | nil => intro r; simp
  | cons s rest ih =>
      intro r
      simp only [List.foldl_cons]
      obtain ⟨hp, ht⟩ := ih (update_flaky_stats (some r) s)
      rw [List.count_cons, List.length_cons]
      cases s <;> simp [update_flaky_stats] at hp ht ⊢ <;> omega

lemma flaky_row_of_history_spec (h : List Bool) (hne : h ≠ []) :
    ∃ r, flaky_row_of_history h = some r ∧
      r.pass_count = h.count true ∧ r.total_runs = h.length ∧ 0 < r.total_runs := by
  obtain ⟨s, rest, rfl⟩ := List.exists_cons_of_ne_nil hne
  refine ⟨(rest.foldl (fun a s => update_flaky_stats (some a) s)
    (update_flaky_stats none s)), ?_, ?_, ?_, ?_⟩
  · rw [flaky_row_of_history, List.foldl_cons, flaky_row_counts]
  · obtain ⟨hp, _⟩ := flaky_fold_counts rest (update_flaky_stats none s)
    rw [hp, List.count_cons]
    cases s <;> simp [update_flaky_stats] <;> omega
  · obtain ⟨_, ht⟩ := flaky_fold_counts rest (update_flaky_stats none s)
    rw [ht, List.length_cons]
    cases s <;> simp [update_flaky_stats] <;> omega
  · obtain ⟨_, ht⟩ := flaky_fold_counts rest (update_flaky_stats none s)
    rw [ht]
    cases s <;> simp [update_flaky_stats]

lemma flaky_history_5_5 :
    flaky_row_of_history (List.replicate 5 true ++ List.replicate 5 false) =
      some { pass_count := 5, fail_count := 5, total_runs := 10, flaky_score := 50 } := by
  norm_num [flaky_row_of_history, update_flaky_stats, List.replicate]

lemma flaky_history_10_0 :
    flaky_row_of_history (List.replicate 10 true) =
      some { pass_count := 10, fail_count := 0, total_runs := 10, flaky_score := 100 } := by
  norm_num [flaky_row_of_history, update_flaky_stats, List.replicate]

/-- C8: for a test with recorded history, the flakiness score is
pass_count / total_runs * 100 over all historical attempts, the classification
used by should_quarantine holds exactly when the score lies strictly between
20 and 80, and in particular 5 passes and 5 fails score 50 (flaky) while
10 passes and 0 fails score 100 (not flaky). -/
theorem flaky_score_spec (h : List Bool) (hne : h ≠ []) :
    calculate_flaky_score (flaky_row_of_history h) =
      ((h.count true : ℚ) / (h.length : ℚ)) * 100 ∧
    (is_flaky_classification (calculate_flaky_score (flaky_row_of_history h)) = true ↔
      20 < calculate_flaky_score (flaky_row_of_history h) ∧
        calculate_flaky_score (flaky_row_of_history h) < 80) ∧
    (calculate_flaky_score (flaky_row_of_history
        (List.replicate 5 true ++ List.replicate 5 false)) = 50 ∧
      is_flaky_classification (calculate_flaky_score (flaky_row_of_history
        (List.replicate 5 true ++ List.replicate 5 false))) = true) ∧
    (calculate_flaky_score (flaky_row_of_history (List.replicate 10 true)) = 100 ∧
      is_flaky_classification (calculate_flaky_score (flaky_row_of_history
        (List.replicate 10 true))) = false) := by
  obtain ⟨r, hr, hp, ht, hpos⟩ := flaky_row_of_history_spec h hne
  have hlen : ¬ h.length = 0 := by omega
  refine ⟨?_, ?_, ?_, ?_⟩
  · rw [hr]
    simp only [calculate_flaky_score]
    rw [hp, ht, if_neg hlen]
  · simp only [is_flaky_classification, Bool.and_eq_true, decide_eq_true_eq]
  · rw [flaky_history_5_5]
    refine ⟨by norm_num [calculate_flaky_score], ?_⟩
    norm_num [calculate_flaky_score, is_flaky_classification]
  · rw [flaky_history_10_0]
    refine ⟨by norm_num [calculate_flaky_score], ?_⟩
    norm_num [calculate_flaky_score, is_flaky_classification]

/-- Witness for C8 at the concrete 5-pass / 5-fail history. -/
theorem flaky_score_spec_witness :
    calculate_flaky_score (flaky_row_of_history
      (List.replicate 5 true ++ List.replicate 5 false)) =
      (((List.replicate 5 true ++ List.replicate 5 false).count true : ℚ) /
        ((List.replicate 5 true ++ List.replicate 5 false).length : ℚ)) * 100 :=
  (flaky_score_spec (List.replicate 5 true ++ List.replicate 5 false) (by decide)).1

/-- External file-system collaborators used by calculate_input_hash:
glob expansion (pattern to matched paths, in operating-system iteration
order; an invalid pattern yields no paths, matching the `if let Ok` guard),
the is_file test, and best-effort file reads (read errors yield none and are
silently skipped). -/
structure HashFs where
  globMatches : String → List String
  isFile : String → Bool
  readFile : String → Option String

/-- Sorting of strings, modelling Vec::sort on strings / paths. -/
def sortStrings (l : List String) : List String :=
  List.insertionSort (fun a b => a ≤ b) l

/-- Environment chunks fed to the hasher: keys sorted for consistency, then
for each key the key bytes and the value bytes
(src/src/execution/cache.rs lines 26-32). -/
def envChunks (env : List (String × String)) : List String :=
  (sortStrings (env.map Prod.fst)).flatMap (fun k => [k, (env.lookup k).getD ""])

/-- Pattern resolution relative to the project root: absolute-looking
patterns (leading slash or containing a colon) are kept, others are prefixed
with the base directory (src/src/execution/cache.rs lines 41-45). -/
def globPatternFor (base : String) (pattern : String) : String :=
  if pattern.startsWith "/" || pattern.contains ':' then pattern
  else base ++ "/" ++ pattern

/-- Chunks contributed by one matched path: the path string then the file
bytes, only when the path is a regular file; unreadable files contribute the
path only (src/src/execution/cache.rs lines 51-60). -/
def fileChunks (fs : HashFs) (path : String) : List String :=
  if fs.isFile path then path :: ((fs.readFile path).elim [] (fun c => [c])) else []

/-- Chunks contributed by one watch/input pattern: matched paths sorted, then
each file's chunks (src/src/execution/cache.rs lines 40-62). -/
def patternChunks (fs : HashFs) (base : String) (pattern : String) : List String :=
  (sortStrings (fs.globMatches (globPatternFor base pattern))).flatMap (fileChunks fs)

/-- Models calculate_input_hash (src/src/execution/cache.rs lines 12-67) as
the SHA-256 input stream: the list of hasher.update payloads, in order.  Two
equal streams produce the identical hex digest, so every equality proved of
this model transfers to the real cache key. -/
def calculate_input_hash (task : Task) (task_name : String) (base : String)
    (fs : HashFs) : List String :=
  [task_name, task.cmd]
    ++ (task.cwd.elim [] (fun c => [c]))
    ++ envChunks task.env
    ++ (task.watch ++ task.inputs).flatMap (patternChunks fs base)

lemma sortStrings_eq_of_perm (l₁ l₂ : List String) (h : l₁.Perm l₂) :
    sortStrings l₁ = sortStrings l₂ := by
  haveI : IsAntisymm String (fun a b => a ≤ b) := ⟨fun _ _ h₁ h₂ => le_antisymm h₁ h₂⟩
  exact List.eq_of_perm_of_sorted
    ((List.perm_insertionSort _ l₁).trans (h.trans (List.perm_insertionSort _ l₂).symm))
    (List.sorted_insertionSort _ l₁) (List.sorted_insertionSort _ l₂)

lemma lookup_eq_of_perm (l₁ l₂ : List (String × String)) (hp : l₁.Perm l₂) :
    (l₁.map Prod.fst).Nodup → ∀ k, l₁.lookup k = l₂.lookup k := by
  induction hp with
  | nil => intro _ k; rfl
  | cons x p ih =>
      intro hnd k
      obtain ⟨xa, xb⟩ := x
      simp only [List.map_cons, List.nodup_cons] at hnd
      cases h : (k == xa) <;> simp only [List.lookup_cons, h]
      exact ih hnd.2 k
  | swap x y t =>
      intro hnd k
      obtain ⟨xa, xb⟩ := x
      obtain ⟨ya, yb⟩ := y
      simp only [List.map_cons, List.nodup_cons, List.mem_cons, not_or] at hnd
      have hxy : ya ≠ xa := hnd.1.1
      cases hky : (k == ya) <;> cases hkx : (k == xa) <;>
        simp only [List.lookup_cons, hky, hkx]
      exact absurd ((eq_of_beq hky).symm.trans (eq_of_beq hkx)) hxy
  | trans p₁ p₂ ih₁ ih₂ =>
      intro hnd k
      have hnd₂ := (List.Perm.map Prod.fst p₁).nodup_iff.mp hnd
      exact (ih₁ hnd k).trans (ih₂ hnd₂ k)

/-- C4: the cache key of calculate_input_hash is deterministic.  For equal
task fields and equal watched/input file contents the digest input stream is
identical; in particular it does not depend on the iteration order of the env
map (keys are sorted before hashing) nor on the enumeration order of
glob-matched files (paths are sorted before hashing). -/
theorem calculate_input_hash_deterministic
    (t₁ t₂ : Task) (name base : String) (fs₁ fs₂ : HashFs)
    (hcmd : t₁.cmd = t₂.cmd) (hcwd : t₁.cwd = t₂.cwd)
    (hw : t₁.watch = t₂.watch) (hi : t₁.inputs = t₂.inputs)
    (henv : t₁.env.Perm t₂.env) (hnd : (t₁.env.map Prod.fst).Nodup)
    (hglob : ∀ p, (fs₁.globMatches p).Perm (fs₂.globMatches p))
    (hfile : fs₁.isFile = fs₂.isFile) (hread : fs₁.readFile = fs₂.readFile) :
    calculate_input_hash t₁ name base fs₁ = calculate_input_hash t₂ name base fs₂ := by
  have hfc : fileChunks fs₁ = fileChunks fs₂ := by
    funext p
    rw [fileChunks, fileChunks, hfile, hread]
  have hpc : ∀ pat, patternChunks fs₁ base pat = patternChunks fs₂ base pat := by
    intro pat
    rw [patternChunks, patternChunks, hfc,
      sortStrings_eq_of_perm _ _ (hglob (globPatternFor base pat))]
  have henvc : envChunks t₁.env = envChunks t₂.env := by
    rw [envChunks, envChunks, sortStrings_eq_of_perm _ _ (henv.map Prod.fst)]
    have hf : (fun k => [k, (t₁.env.lookup k).getD ""]) =
        (fun k => [k, (t₂.env.lookup k).getD ""]) :=
      funext fun k => by rw [lookup_eq_of_perm _ _ henv hnd k]
    rw [hf]
  have hpcf : patternChunks fs₁ base = patternChunks fs₂ base := funext hpc
  rw [calculate_input_hash, calculate_input_hash, hcmd, hcwd, hw, hi, henvc, hpcf]

/-- Witness for C4: the same task with its env map enumerated in two orders,
and the glob collaborator listing files in two orders, hashes to the same
digest stream. -/
theorem calculate_input_hash_deterministic_witness :
    calculate_input_hash
      { cmd := "make", cwd := some "app", watch := ["w"], depends_on := [],
        background := false, category := none, retry := 0, retry_delay_ms := 0,
        env := [("B", "2"), ("A", "1")], inputs := [] }
      "build" "root"
      { globMatches := fun _ => ["q", "p"], isFile := fun _ => true,
        readFile := fun p => some p } =
    calculate_input_hash
      { cmd := "make", cwd := some "app", watch := ["w"], depends_on := [],
        background := false, category := none, retry := 0, retry_delay_ms := 0,
        env := [("A", "1"), ("B", "2")], inputs := [] }
      "build" "root"
      { globMatches := fun _ => ["p", "q"], isFile := fun _ => true,
        readFile := fun p => some p } :=
  calculate_input_hash_deterministic _ _ _ _ _ _ rfl rfl rfl rfl
    (by decide) (by decide)
    (fun _ => (by decide : (["q", "p"] : List String).Perm ["p", "q"])) rfl rfl

/-- Row of the task_cache table (src/src/db/cache.rs CacheEntry).  Timestamps
are an abstract wall-clock in seconds; the input hash is the digest-stream
model of calculate_input_hash. -/
structure CacheEntry where
  task_name : String
  input_hash : List String
  status : String
  duration_ms : Option Int
  created_at : Int
  expires_at : Option Int
deriving Repr, DecidableEq

/-- Contents of the task_cache table.  UNIQUE(task_name, input_hash) is
maintained by the INSERT OR REPLACE modelled in set_cache_entry. -/
abbrev CacheDb := List CacheEntry

/-- Row predicate of the get_cache_entry query: key equality plus
(expires_at IS NULL OR expires_at > now) (src/src/db/cache.rs lines 24-51). -/
def cacheRowMatches (task_name : String) (input_hash : List String) (now : Int)
    (e : CacheEntry) : Bool :=
  e.task_name == task_name && e.input_hash == input_hash &&
    (match e.expires_at with
     | none => true
     | some texp => decide (now < texp))

/-- Models Database::get_cache_entry (src/src/db/cache.rs lines 24-51):
return the stored row for the exact key unless it has expired; expiry is
evaluated at read time against the current clock. -/
def get_cache_entry (db : CacheDb) (now : Int) (task_name : String)
    (input_hash : List String) : Option CacheEntry :=
  db.find? (cacheRowMatches task_name input_hash now)

/-- Models Database::set_cache_entry (src/src/db/cache.rs lines 54-79):
INSERT OR REPLACE keyed on (task_name, input_hash), with
expires_at = now + ttl_hours hours. -/
def set_cache_entry (db : CacheDb) (now : Int) (task_name : String)
    (input_hash : List String) (status : String) (duration_ms : Option Int)
    (ttl_hours : Nat) : CacheDb :=
  db.filter (fun e => !(e.task_name == task_name && e.input_hash == input_hash)) ++
    [{ task_name := task_name, input_hash := input_hash, status := status,
       duration_ms := duration_ms, created_at := now,
       expires_at := some (now + 3600 * (ttl_hours : Int)) }]

/-- Cached task result returned to the orchestrator
(src/src/execution/cache.rs CachedResult). -/
structure CachedResult where
  status : String
  duration_ms : Option Int
deriving Repr, DecidableEq

/-- Models CachedResult::is_success (src/src/execution/cache.rs lines
104-108). -/
def CachedResult.is_success (c : CachedResult) : Bool :=
  c.status == "passed"

/-- Models check_cache (src/src/execution/cache.rs lines 70-83). -/
def check_cache (db : CacheDb) (now : Int) (task_name : String)
    (input_hash : List String) : Option CachedResult :=
  (get_cache_entry db now task_name input_hash).map
    (fun e => { status := e.status, duration_ms := e.duration_ms })

/-- Models store_cache (src/src/execution/cache.rs lines 86-95). -/
def store_cache (db : CacheDb) (now : Int) (task_name : String)
    (input_hash : List String) (status : String) (duration_ms : Option Int)
    (ttl_hours : Nat) : CacheDb :=
  set_cache_entry db now task_name input_hash status duration_ms ttl_hours

/-- Cache manager configuration (src/src/execution/cache.rs CacheManager);
the database handle is passed explicitly as the CacheDb value. -/
structure CacheManager where
  ttl_hours : Nat
  enabled : Bool
deriving Repr, DecidableEq

/-- Models CacheManager::check (src/src/execution/cache.rs lines 123-130):
None when caching is disabled, otherwise a lookup under the task's current
input hash. -/
def CacheManager.check (cm : CacheManager) (db : CacheDb) (now : Int) (task : Task)
    (task_name base : String) (fs : HashFs) : Option CachedResult :=
  if !cm.enabled then none
  else check_cache db now task_name (calculate_input_hash task task_name base fs)

/-- Models CacheManager::store (src/src/execution/cache.rs lines 133-140):
a no-op when caching is disabled, otherwise an upsert under the task's
current input hash. -/
def CacheManager.store (cm : CacheManager) (db : CacheDb) (now : Int) (task : Task)
    (task_name base : String) (fs : HashFs) (status : String) (duration_ms : Int) :
    CacheDb :=
  if !cm.enabled then db
  else store_cache db now task_name (calculate_input_hash task task_name base fs)
    status (some duration_ms) cm.ttl_hours

lemma find?_filtered_none (db : CacheDb) (name : String) (hash : List String) (now : Int) :
    (db.filter (fun e => !(e.task_name == name && e.input_hash == hash))).find?
      (cacheRowMatches name hash now) = none := by
  rw [List.find?_eq_none]
  intro e he
  have hmem := List.of_mem_filter he
  intro habs
  rw [cacheRowMatches, Bool.and_assoc] at habs
  simp only [Bool.and_eq_true, beq_iff_eq] at habs
  simp [habs.1, habs.2.1] at hmem

lemma store_then_check (cm : CacheManager) (db : CacheDb) (task : Task)
    (name base : String) (fs : HashFs) (status : String) (dm : Int) (t t' : Int)
    (hen : cm.enabled = true) :
    cm.check (cm.store db t task name base fs status dm) t' task name base fs =
      (if t' < t + 3600 * (cm.ttl_hours : Int) then
        some { status := status, duration_ms := some dm } else none) := by
  rw [CacheManager.check, CacheManager.store, hen]
  simp only [Bool.not_true, Bool.false_eq_true, if_false]
  rw [check_cache, get_cache_entry, store_cache, set_cache_entry, List.find?_append,
    find?_filtered_none]
  simp only [Option.none_orElse, List.find?_cons, List.find?_nil]
  by_cases hf : t' < t + 3600 * (cm.ttl_hours : Int)
  · rw [if_pos hf]
    have : cacheRowMatches name (calculate_input_hash task name base fs) t'
        { task_name := name, input_hash := calculate_input_hash task name base fs,
          status := status, duration_ms := some dm, created_at := t,
          expires_at := some (t + 3600 * (cm.ttl_hours : Int)) } = true := by
      simp [cacheRowMatches, hf]
    rw [this]
    rfl
  · rw [if_neg hf]
    have : cacheRowMatches name (calculate_input_hash task name base fs) t'
        { task_name := name, input_hash := calculate_input_hash task name base fs,
          status := status, duration_ms := some dm, created_at := t,
          expires_at := some (t + 3600 * (cm.ttl_hours : Int)) } = false := by
      simp [cacheRowMatches, hf]
    rw [this]
    rfl

/-- C3: storing a result and checking the same key returns Some of the stored
status while the TTL has not elapsed and None once it has, expiry being
evaluated at read time; check also returns None whenever caching is disabled
or no entry exists for the key. -/
theorem cache_round_trip (cm : CacheManager) (db : CacheDb) (task : Task)
    (name base : String) (fs : HashFs) (status : String) (dm : Int) (t t' : Int)
    (hen : cm.enabled = true) :
    (t' < t + 3600 * (cm.ttl_hours : Int) →
      cm.check (cm.store db t task name base fs status dm) t' task name base fs =
        some { status := status, duration_ms := some dm }) ∧
    (t + 3600 * (cm.ttl_hours : Int) ≤ t' →
      cm.check (cm.store db t task name base fs status dm) t' task name base fs = none) ∧
    (∀ cm' : CacheManager, cm'.enabled = false →
      cm'.check db t' task name base fs = none) ∧
    ((∀ e ∈ db, ¬(e.task_name = name ∧
        e.input_hash = calculate_input_hash task name base fs)) →
      cm.check db t' task name base fs = none) := by
  refine ⟨fun hf => ?_, fun hf => ?_, fun cm' hdis => ?_, fun hno => ?_⟩
  · rw [store_then_check cm db task name base fs status dm t t' hen, if_pos hf]
  · rw [store_then_check cm db task name base fs status dm t t' hen, if_neg (by omega)]
  · rw [CacheManager.check, hdis]
    rfl
  · rw [CacheManager.check, hen]
    simp only [Bool.not_true, Bool.false_eq_true, if_false]
    rw [check_cache, get_cache_entry]
    suffices hfind : db.find?
        (cacheRowMatches name (calculate_input_hash task name base fs) t') = none by
      rw [hfind]; rfl
    rw [List.find?_eq_none]
    intro e he habs
    rw [cacheRowMatches, Bool.and_assoc] at habs
    simp only [Bool.and_eq_true, beq_iff_eq] at habs
    exact hno e he ⟨habs.1, habs.2.1⟩

/-- Witness for C3 at a concrete task, clock and TTL. -/
theorem cache_round_trip_witness :
    (CacheManager.check ⟨24, true⟩
      (CacheManager.store ⟨24, true⟩ [] 1000
        { cmd := "c", cwd := none, watch := [], depends_on := [], background := false,
          category := none, retry := 0, retry_delay_ms := 0, env := [], inputs := [] }
        "t" "root" ⟨fun _ => [], fun _ => false, fun _ => none⟩ "passed" 5)
      2000
      { cmd := "c", cwd := none, watch := [], depends_on := [], background := false,
        category := none, retry := 0, retry_delay_ms := 0, env := [], inputs := [] }
      "t" "root" ⟨fun _ => [], fun _ => false, fun _ => none⟩) =
      some { status := "passed", duration_ms := some 5 } :=
  (cache_round_trip ⟨24, true⟩ [] _ "t" "root" _ "passed" 5 1000 2000 rfl).1 (by norm_num)

/-- Models the cache / background / execute-and-store decision of
Runner::execute_single_task (src/src/execution/runner.rs lines 287-401):
a non-expired cache entry for the current input hash — whatever its stored
status — short-circuits with no TaskResult; a background task is handed to
the supervisor (no TaskResult, no cache write); otherwise the task executes
(outcome supplied by the process collaborator as execOutcome) and the result
is stored in the cache as "passed" or "failed".  Returns the optional
TaskResult together with the cache table after the call. -/
def execute_single_task (cm? : Option CacheManager) (db : CacheDb) (now : Int)
    (task : Task) (name base : String) (fs : HashFs) (execOutcome : TaskResult) :
    Option TaskResult × CacheDb :=
  match cm? with
  | some cm =>
      match cm.check db now task name base fs with
      | some _ => (none, db)
      | none =>
          if task.background then (none, db)
          else
            let status := if execOutcome.success then "passed" else "failed"
            (some execOutcome,
              cm.store db now task name base fs status (execOutcome.duration_ms : Int))
  | none =>
      if task.background then (none, db)
      else (some execOutcome, db)

/-- C10: the cache-hit decision of execute_single_task ignores the stored
status — any non-expired entry, a "failed" one included, skips execution and
produces no TaskResult — and a failing execution is stored with status
"failed", so a failed task with unchanged inputs is skipped on the next run
until its entry expires. -/
theorem failed_cache_entry_skips_next_run (cm : CacheManager) (db : CacheDb)
    (task : Task) (name base : String) (fs : HashFs) (failing : TaskResult)
    (t t' : Int)
    (hbg : task.background = false) (hen : cm.enabled = true)
    (hfail : failing.success = false)
    (hmiss : cm.check db t task name base fs = none)
    (hfresh : t' < t + 3600 * (cm.ttl_hours : Int)) :
    (∀ (db₀ : CacheDb) (t₀ : Int) (cr : CachedResult) (o₁ o₂ : TaskResult),
      cm.check db₀ t₀ task name base fs = some cr →
      execute_single_task (some cm) db₀ t₀ task name base fs o₁ = (none, db₀) ∧
      execute_single_task (some cm) db₀ t₀ task name base fs o₁ =
        execute_single_task (some cm) db₀ t₀ task name base fs o₂) ∧
    (execute_single_task (some cm) db t task name base fs failing =
      (some failing,
        cm.store db t task name base fs "failed" (failing.duration_ms : Int))) ∧
    (∀ o : TaskResult,
      execute_single_task (some cm)
        (execute_single_task (some cm) db t task name base fs failing).2
        t' task name base fs o =
      (none, (execute_single_task (some cm) db t task name base fs failing).2)) ∧
    (cm.check (execute_single_task (some cm) db t task name base fs failing).2
        t' task name base fs =
      some { status := "failed", duration_ms := some (failing.duration_ms : Int) } ∧
      CachedResult.is_success
        { status := "failed", duration_ms := some (failing.duration_ms : Int) } = false) := by
  have hstep : execute_single_task (some cm) db t task name base fs failing =
      (some failing,
        cm.store db t task name base fs "failed" (failing.duration_ms : Int)) := by
    rw [execute_single_task]
    simp only [hmiss, hbg, Bool.false_eq_true, if_false, hfail]
  have hhit : cm.check (execute_single_task (some cm) db t task name base fs failing).2
      t' task name base fs =
      some { status := "failed", duration_ms := some (failing.duration_ms : Int) } := by
    rw [hstep]
    rw [store_then_check cm db task name base fs "failed" (failing.duration_ms : Int)
      t t' hen, if_pos hfresh]
  refine ⟨?_, hstep, ?_, hhit, rfl⟩
  · intro db₀ t₀ cr o₁ o₂ hsome
    rw [execute_single_task, hsome]
    exact ⟨rfl, by rw [execute_single_task, hsome]⟩
  · intro o
    rw [execute_single_task, hhit]

/-- Witness for C10: a failing run of a concrete task stores a failed entry
and the next run within the TTL is skipped with no TaskResult. -/
theorem failed_cache_entry_skips_next_run_witness :
    execute_single_task (some ⟨24, true⟩)
      (execute_single_task (some ⟨24, true⟩) [] 1000
        { cmd := "c", cwd := none, watch := [], depends_on := [], background := false,
          category := none, retry := 0, retry_delay_ms := 0, env := [], inputs := [] }
        "t" "root" ⟨fun _ => [], fun _ => false, fun _ => none⟩
        { name := "t", success := false, duration_ms := 7, category := none }).2
      2000
      { cmd := "c", cwd := none, watch := [], depends_on := [], background := false,
        category := none, retry := 0, retry_delay_ms := 0, env := [], inputs := [] }
      "t" "root" ⟨fun _ => [], fun _ => false, fun _ => none⟩
      { name := "t", success := true, duration_ms := 9, category := none } =
    (none,
      (execute_single_task (some ⟨24, true⟩) [] 1000
        { cmd := "c", cwd := none, watch := [], depends_on := [], background := false,
          category := none, retry := 0, retry_delay_ms := 0, env := [], inputs := [] }
        "t" "root" ⟨fun _ => [], fun _ => false, fun _ => none⟩
        { name := "t", success := false, duration_ms := 7, category := none }).2) :=
  (failed_cache_entry_skips_next_run ⟨24, true⟩ [] _ "t" "root" _ _ 1000 2000
    rfl rfl rfl (by decide) (by norm_num)).2.2.1
    { name := "t", success := true, duration_ms := 9, category := none }

/-- Behaviour of one task within a run, abstracting the collaborators of
Runner::execute_single_task: a cache hit, a background task whose start
succeeds or fails, a foreground task producing a pass/fail TaskResult, or a
foreground task whose execution (or subsequent cache/database write)
returns an orchestrator-level Err that the runner propagates with the
question-mark operator. -/
inductive TaskBehavior where
  | cached
  | bgOk
  | bgErr
  | fgRes (success : Bool)
  | fgErr
deriving Repr, DecidableEq

/-- Observable background-process lifecycle events of one run: start records
BackgroundProcess creation, kill records BackgroundProcess::kill — a kill
plus wait of the child (src/src/task.rs lines 26-44). -/
inductive RunEvent where
  | start (name : String)
  | kill (name : String)
deriving Repr, DecidableEq

/-- Whether the run returned Ok or propagated an Err. -/
inductive RunOutcome where
  | ok
  | err
deriving Repr, DecidableEq

/-- Models stop_background_processes (src/src/execution/runner.rs lines
526-531): explicit teardown kills the tracked processes in reverse start
order and clears the list. -/
def stop_background_processes (bg : List String) : List RunEvent :=
  bg.reverse.map RunEvent.kill

/-- Kill events produced when the runner returns early through the
question-mark operator and the local Vec of BackgroundProcess handles is
dropped: Rust drops Vec elements front to back, and BackgroundProcess::Drop
calls kill (src/src/task.rs lines 40-44), so the processes die in forward
start order. -/
def drop_backgrounds (bg : List String) : List RunEvent :=
  bg.map RunEvent.kill

/-- Models the sequential task loop of Runner::execute_tasks
(src/src/execution/runner.rs lines 233-265) restricted to its
background-process effects: bg is the background_processes vector in start
order, ev the event trace so far.  Cache hits and background starts add no
TaskResult; a background start failure calls stop_background_processes and
returns the error; a failed foreground task under fail_fast stops the
backgrounds and breaks; a propagated foreground error drops the vector; on
normal completion the remaining backgrounds are stopped. -/
def execute_tasks_go (failFast : Bool) :
    List (String × TaskBehavior) → List String → List RunEvent →
    RunOutcome × List RunEvent
  | [], bg, ev => (.ok, ev ++ stop_background_processes bg)
  | (name, b) :: rest, bg, ev =>
      match b with
      | .cached => execute_tasks_go failFast rest bg ev
      | .bgOk => execute_tasks_go failFast rest (bg ++ [name]) (ev ++ [.start name])
      | .bgErr => (.err, ev ++ stop_background_processes bg)
      | .fgRes success =>
          if !success && failFast then (.ok, ev ++ stop_background_processes bg)
          else execute_tasks_go failFast rest bg ev
      | .fgErr => (.err, ev ++ drop_backgrounds bg)

/-- Background-process event trace of one sequential run. -/
def execute_tasks_events (failFast : Bool) (tasks : List (String × TaskBehavior)) :
    RunOutcome × List RunEvent :=
  execute_tasks_go failFast tasks [] []

/-- Names of the processes started during a run, in start order. -/
def startsOf (ev : List RunEvent) : List String :=
  ev.filterMap (fun e => match e with | .start n => some n | .kill _ => none)

/-- Names of the processes killed during a run, in kill order. -/
def killsOf (ev : List RunEvent) : List String :=
  ev.filterMap (fun e => match e with | .kill n => some n | .start _ => none)

lemma startsOf_append (a b : List RunEvent) :
    startsOf (a ++ b) = startsOf a ++ startsOf b := by
  simp [startsOf]

lemma killsOf_append (a b : List RunEvent) :
    killsOf (a ++ b) = killsOf a ++ killsOf b := by
  simp [killsOf]

lemma startsOf_stop (bg : List String) : startsOf (stop_background_processes bg) = [] := by
  simp [startsOf, stop_background_processes, List.filterMap_map]

lemma killsOf_stop (bg : List String) :
    killsOf (stop_background_processes bg) = bg.reverse := by
  simp only [killsOf, stop_background_processes, List.filterMap_map]
  rw [show ((fun e => match e with | .kill n => some n | .start _ => none) ∘ RunEvent.kill) =
    some from rfl]
  exact List.filterMap_some _

lemma startsOf_drop_backgrounds (bg : List String) :
    startsOf (drop_backgrounds bg) = [] := by
  simp [startsOf, drop_backgrounds, List.filterMap_map]

lemma killsOf_drop_backgrounds (bg : List String) :
    killsOf (drop_backgrounds bg) = bg := by
  simp only [killsOf, drop_backgrounds, List.filterMap_map]
  rw [show ((fun e => match e with | .kill n => some n | .start _ => none) ∘ RunEvent.kill) =
    some from rfl]
  exact List.filterMap_some _

lemma execute_tasks_go_spec (failFast : Bool) :
    ∀ (tasks : List (String × TaskBehavior)) (bg : List String) (ev : List RunEvent),
      killsOf ev = [] → startsOf ev = bg →
      killsOf (execute_tasks_go failFast tasks bg ev).2 =
          (startsOf (execute_tasks_go failFast tasks bg ev).2).reverse ∨
      ((∃ p ∈ tasks, p.2 = .fgErr) ∧
        (killsOf (execute_tasks_go failFast tasks bg ev).2).Perm
          (startsOf (execute_tasks_go failFast tasks bg ev).2)) := by
  intro tasks
  induction tasks with
  | nil =>
      intro bg ev hk hs
      left
      rw [execute_tasks_go]
      rw [killsOf_append, startsOf_append, hk, hs, killsOf_stop, startsOf_stop,
        List.append_nil, List.nil_append]
  | cons p rest ih =>
      intro bg ev hk hs
      obtain ⟨name, b⟩ := p
      cases b with
      | cached => exact (ih bg ev hk hs).imp id (fun ⟨⟨q, hq, he⟩, hperm⟩ =>
          ⟨⟨q, List.mem_cons_of_mem _ hq, he⟩, hperm⟩)
      | bgOk =>
          have hk' : killsOf (ev ++ [RunEvent.start name]) = [] := by
            rw [killsOf_append, hk]; rfl
          have hs' : startsOf (ev ++ [RunEvent.start name]) = bg ++ [name] := by
            rw [startsOf_append, hs]; rfl
          exact (ih (bg ++ [name]) _ hk' hs').imp id (fun ⟨⟨q, hq, he⟩, hperm⟩ =>
            ⟨⟨q, List.mem_cons_of_mem _ hq, he⟩, hperm⟩)
      | bgErr =>
          left
          rw [execute_tasks_go]
          rw [killsOf_append, startsOf_append, hk, hs, killsOf_stop, startsOf_stop,
            List.append_nil, List.nil_append]
      | fgRes success =>
          rw [execute_tasks_go]
          by_cases hc : (!success && failFast) = true
          · rw [if_pos hc]
            left
            rw [killsOf_append, startsOf_append, hk, hs, killsOf_stop, startsOf_stop,
              List.append_nil, List.nil_append]
          · rw [if_neg hc]
            exact (ih bg ev hk hs).imp id (fun ⟨⟨q, hq, he⟩, hperm⟩ =>
              ⟨⟨q, List.mem_cons_of_mem _ hq, he⟩, hperm⟩)
      | fgErr =>
          right
          rw [execute_tasks_go]
          constructor
          · exact ⟨(name, .fgErr), List.mem_cons_self _ _, rfl⟩
          · rw [killsOf_append, startsOf_append, hk, hs, killsOf_drop_backgrounds,
              startsOf_drop_backgrounds, List.append_nil, List.nil_append]

/-- C6 (amended): on every exit path of the sequential runner — normal
completion, fail-fast foreground failure, background-start failure, or a
propagated orchestrator-level error — every background process started during
the run is killed and awaited exactly once before the run returns; on all
paths that use the explicit stop_background_processes teardown the kills
happen in reverse start order, while a propagated error path kills them
through Vec drop in forward start order. -/
theorem background_teardown (failFast : Bool) (tasks : List (String × TaskBehavior)) :
    (killsOf (execute_tasks_events failFast tasks).2).Perm
      (startsOf (execute_tasks_events failFast tasks).2) ∧
    ((∀ p ∈ tasks, p.2 ≠ .fgErr) →
      killsOf (execute_tasks_events failFast tasks).2 =
        (startsOf (execute_tasks_events failFast tasks).2).reverse) := by
  have h := execute_tasks_go_spec failFast tasks [] [] rfl rfl
  rw [execute_tasks_events]
  rcases h with h | ⟨⟨q, hq, he⟩, hperm⟩
  · exact ⟨h ▸ (List.reverse_perm _), fun _ => h⟩
  · exact ⟨hperm, fun hall => absurd he (hall q hq)⟩

/-- Witness for C6 (amended) on a run that starts two background tasks and
then fails a foreground task under fail-fast: both are killed, in reverse
start order. -/
theorem background_teardown_witness :
    (killsOf (execute_tasks_events true
        [("b1", .bgOk), ("b2", .bgOk), ("x", .fgRes false)]).2).Perm
      (startsOf (execute_tasks_events true
        [("b1", .bgOk), ("b2", .bgOk), ("x", .fgRes false)]).2) ∧
    killsOf (execute_tasks_events true
        [("b1", .bgOk), ("b2", .bgOk), ("x", .fgRes false)]).2 = ["b2", "b1"] := by
  have h := background_teardown true [("b1", .bgOk), ("b2", .bgOk), ("x", .fgRes false)]
  refine ⟨h.1, ?_⟩
  rw [h.2 (by decide)]
  decide

/-- Counterexample to C6 as stated: on the exit path where an
orchestrator-level error propagates out of the runner (here the third task's
execution returns Err), the two background processes are killed in forward
start order b1 then b2, not in reverse of the order in which they were
started. -/
theorem background_teardown_counterexample :
    killsOf (execute_tasks_events false
        [("b1", .bgOk), ("b2", .bgOk), ("x", .fgErr)]).2 = ["b1", "b2"] ∧
    startsOf (execute_tasks_events false
        [("b1", .bgOk), ("b2", .bgOk), ("x", .fgErr)]).2 = ["b1", "b2"] ∧
    (execute_tasks_events false [("b1", .bgOk), ("b2", .bgOk), ("x", .fgErr)]).1 =
      .err ∧
    killsOf (execute_tasks_events false
        [("b1", .bgOk), ("b2", .bgOk), ("x", .fgErr)]).2 ≠
      (startsOf (execute_tasks_events false
        [("b1", .bgOk), ("b2", .bgOk), ("x", .fgErr)]).2).reverse := by
  refine ⟨?_, ?_, ?_, ?_⟩ <;> decide

lemma getTask_mem_names (cfg : Config) (name : String) (t : Task)
    (h : getTask cfg name = some t) : name ∈ cfg.map Prod.fst := by
  rw [getTask, Option.map_eq_some'] at h
  obtain ⟨p, hp, rfl⟩ := h
  have hmem := List.mem_of_find?_eq_some hp
  have heq := List.find?_some hp
  simp only [beq_iff_eq] at heq
  exact heq ▸ List.mem_map_of_mem Prod.fst hmem

lemma getTask_pair_mem (cfg : Config) (name : String) (t : Task)
    (h : getTask cfg name = some t) : (name, t) ∈ cfg := by
  rw [getTask, Option.map_eq_some'] at h
  obtain ⟨p, hp, rfl⟩ := h
  have hmem := List.mem_of_find?_eq_some hp
  have heq := List.find?_some hp
  simp only [beq_iff_eq] at heq
  obtain ⟨pa, pb⟩ := p
  have hpa : pa = name := heq
  subst hpa
  exact hmem

/-- Sum of all dependency-list lengths, an upper bound on the number of names
pushed onto the breadth-first queue in one step. -/
def depsBound (cfg : Config) : Nat :=
  (cfg.map (fun p => p.2.depends_on.length)).sum

/-- Number of configured task names not yet collected, the decreasing part of
the breadth-first measure. -/
def namesNotIn (cfg : Config) (required : List String) : Nat :=
  ((cfg.map Prod.fst).filter (fun n => decide (n ∉ required))).length

lemma deps_le_depsBound (cfg : Config) (name : String) (t : Task)
    (h : getTask cfg name = some t) : t.depends_on.length ≤ depsBound cfg := by
  have hp := getTask_pair_mem cfg name t h
  exact List.single_le_sum (fun _ _ => Nat.zero_le _) _
    (List.mem_map_of_mem (fun p => p.2.depends_on.length) hp)

lemma filter_not_mem_mono (S req : List String) (name : String) :
    (S.filter (fun n => decide (n ∉ req ++ [name]))).length ≤
      (S.filter (fun n => decide (n ∉ req))).length := by
  rw [← List.countP_eq_length_filter, ← List.countP_eq_length_filter]
  apply List.countP_mono_left
  intro a _ ha
  simp only [decide_eq_true_eq, List.mem_append] at ha ⊢
  exact fun h => ha (Or.inl h)

lemma filter_not_mem_insert :
    ∀ (S req : List String) (name : String), name ∈ S → name ∉ req →
      (S.filter (fun n => decide (n ∉ req ++ [name]))).length + 1 ≤
        (S.filter (fun n => decide (n ∉ req))).length := by
  intro S
  induction S with
  | nil => intro req name h _; cases h
  | cons a S ih =>
      intro req name hmem hnot
      by_cases ha : a = name
      · subst ha
        have h1 : (decide (a ∉ req ++ [a])) = false := by simp
        have h2 : (decide (a ∉ req)) = true := by simpa using hnot
        simp only [List.filter_cons, h1, h2, Bool.false_eq_true, if_false, if_true,
          List.length_cons]
        have := filter_not_mem_mono S req a
        omega
      · have hmem' : name ∈ S := by
          rcases List.mem_cons.mp hmem with h | h
          · exact absurd h.symm ha
          · exact h
        have ih' := ih req name hmem' hnot
        by_cases hr : a ∈ req
        · have h1 : (decide (a ∉ req ++ [name])) = false := by
            simp [List.mem_append, hr]
          have h2 : (decide (a ∉ req)) = false := by simp [hr]
          simp only [List.filter_cons, h1, h2, Bool.false_eq_true, if_false]
          exact ih'
        · have h1 : (decide (a ∉ req ++ [name])) = true := by
            simp [List.mem_append, hr, ha]
          have h2 : (decide (a ∉ req)) = true := by simp [hr]
          simp only [List.filter_cons, h1, h2, if_true, List.length_cons]
          omega

lemma namesNotIn_insert (cfg : Config) (required : List String) (name : String)
    (hmem : name ∈ cfg.map Prod.fst) (hnot : name ∉ required) :
    namesNotIn cfg (required ++ [name]) + 1 ≤ namesNotIn cfg required :=
  filter_not_mem_insert (cfg.map Prod.fst) required name hmem hnot

/-- Models collect_required_tasks (src/src/graph.rs lines 66-88): the
breadth-first closure of the requested names under depends_on.  The queue is
processed front to back; a name already collected is skipped, an unknown name
aborts with an error, and otherwise the name is collected and its
not-yet-collected dependencies are enqueued. -/
def collect_required_tasks_go (cfg : Config) :
    List String → List String → Except String (List String)
  | [], required => .ok required
  | name :: rest, required =>
      if name ∈ required then
        collect_required_tasks_go cfg rest required
      else
        match h : getTask cfg name with
        | some task =>
            collect_required_tasks_go cfg
              (rest ++ task.depends_on.filter (fun d => decide (d ∉ required ++ [name])))
              (required ++ [name])
        | none => .error ("Task not found: " ++ name)
termination_by q required => q.length + (depsBound cfg + 1) * namesNotIn cfg required
decreasing_by
· simp only [List.length_cons]
  omega
· simp only [List.length_append, List.length_cons]
  have hp : (task.depends_on.filter
      (fun d => decide (d ∉ required ++ [name]))).length ≤ depsBound cfg :=
    le_trans (List.length_filter_le _ _) (deps_le_depsBound cfg name task h)
  have hn : namesNotIn cfg (required ++ [name]) + 1 ≤ namesNotIn cfg required :=
    namesNotIn_insert cfg required name (getTask_mem_names cfg name task h) (by assumption)
  have hmul : (depsBound cfg + 1) * (namesNotIn cfg (required ++ [name]) + 1) ≤
      (depsBound cfg + 1) * namesNotIn cfg required :=
    Nat.mul_le_mul_left _ hn
  rw [Nat.mul_add, Nat.mul_one] at hmul
  omega

/-- Models collect_required_tasks (src/src/graph.rs lines 66-88). -/
def collect_required_tasks (cfg : Config) (task_names : List String) :
    Except String (List String) :=
  collect_required_tasks_go cfg task_names []

/-- Direct dependency edge: task a exists and lists b in its depends_on. -/
def DepStep (cfg : Config) (a b : String) : Prop :=
  ∃ t, getTask cfg a = some t ∧ b ∈ t.depends_on

lemma collect_go_spec (cfg : Config) (names : List String) :
    ∀ (queue required : List String),
      required.Nodup →
      (∀ n ∈ required, ∃ t, getTask cfg n = some t) →
      (∀ n ∈ required, ∃ s ∈ names, Relation.ReflTransGen (DepStep cfg) s n) →
      (∀ n ∈ queue, ∃ s ∈ names, Relation.ReflTransGen (DepStep cfg) s n) →
      (∀ a ∈ required, ∀ b, DepStep cfg a b → b ∈ required ∨ b ∈ queue) →
      (∀ s ∈ names, s ∈ required ∨ s ∈ queue) →
      ∀ V, collect_required_tasks_go cfg queue required = .ok V →
        V.Nodup ∧
        (∀ n ∈ V, ∃ t, getTask cfg n = some t) ∧
        (∀ n ∈ V, ∃ s ∈ names, Relation.ReflTransGen (DepStep cfg) s n) ∧
        (∀ a ∈ V, ∀ b, DepStep cfg a b → b ∈ V) ∧
        (∀ s ∈ names, s ∈ V) := by
  intro queue required
  induction queue, required using collect_required_tasks_go.induct cfg with
  | case1 required =>
      intro hnd hsome hS hq hC hroots V hok
      rw [collect_required_tasks_go] at hok
      injection hok with hok
      subst hok
      refine ⟨hnd, hsome, hS, ?_, ?_⟩
      · intro a ha b hb
        rcases hC a ha b hb with h | h
        · exact h
        · cases h
      · intro s hs
        rcases hroots s hs with h | h
        · exact h
        · cases h
  | case2 name rest required hmem ih =>
      intro hnd hsome hS hq hC hroots V hok
      rw [collect_required_tasks_go, if_pos hmem] at hok
      refine ih hnd hsome hS (fun n hn => hq n (List.mem_cons_of_mem _ hn)) ?_ ?_ V hok
      · intro a ha b hb
        rcases hC a ha b hb with h | h
        · exact Or.inl h
        · rcases List.mem_cons.mp h with h | h
          · exact Or.inl (h ▸ hmem)
          · exact Or.inr h
      · intro s hs
        rcases hroots s hs with h | h
        · exact Or.inl h
        · rcases List.mem_cons.mp h with h | h
          · exact Or.inl (h ▸ hmem)
          · exact Or.inr h
  | case3 name rest required hmem task hget ih =>
      intro hnd hsome hS hq hC hroots V hok
      rw [collect_required_tasks_go, if_neg hmem, hget] at hok
      have hreach : ∃ s ∈ names, Relation.ReflTransGen (DepStep cfg) s name :=
        hq name (List.mem_cons_self _ _)
      refine ih ?_ ?_ ?_ ?_ ?_ ?_ V hok
      · rw [List.nodup_append]
        exact ⟨hnd, List.nodup_singleton _,
          fun x hx hx1 => hmem ((List.mem_singleton.mp hx1) ▸ hx)⟩
      · intro n hn
        rcases List.mem_append.mp hn with h | h
        · exact hsome n h
        · rw [List.mem_singleton.mp h]
          exact ⟨task, hget⟩
      · intro n hn
        rcases List.mem_append.mp hn with h | h
        · exact hS n h
        · rw [List.mem_singleton.mp h]
          exact hreach
      · intro n hn
        rcases List.mem_append.mp hn with h | h
        · exact hq n (List.mem_cons_of_mem _ h)
        · have hd := List.mem_filter.mp h
          obtain ⟨s, hs, hr⟩ := hreach
          exact ⟨s, hs, hr.tail ⟨task, hget, hd.1⟩⟩
      · intro a ha b hb
        rcases List.mem_append.mp ha with h | h
        · rcases hC a h b hb with h2 | h2
          · exact Or.inl (List.mem_append.mpr (Or.inl h2))
          · rcases List.mem_cons.mp h2 with h3 | h3
            · exact Or.inl (List.mem_append.mpr (Or.inr (h3 ▸ List.mem_singleton_self _)))
            · exact Or.inr (List.mem_append.mpr (Or.inl h3))
        · have ha2 := List.mem_singleton.mp h
          rw [ha2] at hb
          obtain ⟨t', hget', hbd⟩ := hb
          rw [hget] at hget'
          injection hget' with hget'
          subst hget'
          by_cases hbr : b ∈ required ++ [name]
          · exact Or.inl hbr
          · refine Or.inr (List.mem_append.mpr (Or.inr ?_))
            rw [List.mem_filter]
            exact ⟨hbd, by simpa using hbr⟩
      · intro s hs
        rcases hroots s hs with h | h
        · exact Or.inl (List.mem_append.mpr (Or.inl h))
        · rcases List.mem_cons.mp h with h2 | h2
          · exact Or.inl (List.mem_append.mpr (Or.inr (h2 ▸ List.mem_singleton_self _)))
          · exact Or.inr (List.mem_append.mpr (Or.inl h2))
  | case4 name rest required hmem hget =>
      intro hnd hsome hS hq hC hroots V hok
      rw [collect_required_tasks_go, if_neg hmem, hget] at hok
      cases hok

lemma collect_required_tasks_spec (cfg : Config) (names : List String) (V : List String)
    (h : collect_required_tasks cfg names = .ok V) :
    V.Nodup ∧
    (∀ n ∈ V, ∃ t, getTask cfg n = some t) ∧
    (∀ n, n ∈ V ↔ ∃ s ∈ names, Relation.ReflTransGen (DepStep cfg) s n) := by
  have hspec := collect_go_spec cfg names names []
    (List.nodup_nil) (fun n hn => absurd hn (List.not_mem_nil n))
    (fun n hn => absurd hn (List.not_mem_nil n))
    (fun n hn => ⟨n, hn, Relation.ReflTransGen.refl⟩)
    (fun a ha => absurd ha (List.not_mem_nil a))
    (fun s hs => Or.inr hs) V h
  obtain ⟨hnd, hsome, hS, hclosed, hroots⟩ := hspec
  have hreachmem : ∀ s n, s ∈ names → Relation.ReflTransGen (DepStep cfg) s n → n ∈ V := by
    intro s n hs hr
    induction hr with
    | refl => exact hroots s hs
    | tail hab hbc ih2 => exact hclosed _ ih2 _ hbc
  exact ⟨hnd, hsome, fun n =>
    ⟨fun hn => hS n hn, fun ⟨s, hs, hr⟩ => hreachmem s n hs hr⟩⟩

/-- In-degree of a required task, counting only dependency edges whose target
is also required (src/src/graph.rs lines 20-32).  Modelled as Int, matching
the exact arithmetic of the usize counter under the no-underflow invariant. -/
def in_degree_of (cfg : Config) (V : List String) (name : String) : Int :=
  (((depsOf cfg name).filter (fun dep => decide (dep ∈ V))).length : Int)

/-- Reverse adjacency built by the same double loop: for each required name,
each occurrence of d among its in-required dependencies pushes the name onto
the dependents list of d (src/src/graph.rs lines 20-32). -/
def dependents_of (cfg : Config) (V : List String) (d : String) : List String :=
  V.flatMap (fun name =>
    ((depsOf cfg name).filter (fun dep => dep == d && decide (dep ∈ V))).map
      (fun _ => name))

/-- Inner loop over the dependents of a popped node (src/src/graph.rs lines
46-55): each dependent present in the in-degree map is decremented, and a
dependent whose degree reaches zero is appended to the queue.  Returns the
updated degree map and the list of newly enqueued nodes, in order. -/
def dec_deps (V : List String) : List String → (String → Int) → (String → Int) × List String
  | [], deg => (deg, [])
  | d :: ds, deg =>
      if d ∈ V then
        let deg' := Function.update deg d (deg d - 1)
        let r := dec_deps V ds deg'
        (r.1, (if deg d - 1 = 0 then [d] else []) ++ r.2)
      else dec_deps V ds deg

/-- Sum of the nonnegative degrees over V, the potential of the Kahn loop. -/
def sumDeg (V : List String) (deg : String → Int) : Nat :=
  (V.map (fun v => (deg v).toNat)).sum

lemma sumDeg_mono (V : List String) (f g : String → Int) (h : ∀ v ∈ V, f v ≤ g v) :
    sumDeg V f ≤ sumDeg V g := by
  induction V with
  | nil => exact le_refl _
  | cons a V ih =>
      have h1 : (f a).toNat ≤ (g a).toNat :=
        Int.toNat_le_toNat (h a (List.mem_cons_self _ _))
      have h2 := ih (fun v hv => h v (List.mem_cons_of_mem _ hv))
      simp only [sumDeg, List.map_cons, List.sum_cons] at h2 ⊢
      omega

lemma sumDeg_update_le (V : List String) (deg : String → Int) (d : String) :
    sumDeg V (Function.update deg d (deg d - 1)) ≤ sumDeg V deg := by
  apply sumDeg_mono
  intro v _
  by_cases hv : v = d
  · subst hv
    rw [Function.update_same]
    omega
  · rw [Function.update_noteq hv]

lemma sumDeg_update_lt (V : List String) (deg : String → Int) (d : String)
    (hd : d ∈ V) (h1 : deg d = 1) :
    sumDeg V (Function.update deg d (deg d - 1)) + 1 ≤ sumDeg V deg := by
  induction V with
  | nil => cases hd
  | cons a V ih =>
      simp only [sumDeg, List.map_cons, List.sum_cons]
      by_cases ha : a = d
      · subst ha
        rw [Function.update_same, h1]
        have h2 := sumDeg_update_le V deg a
        simp only [sumDeg] at h2
        rw [h1] at h2
        omega
      · rw [Function.update_noteq ha]
        have hd' : d ∈ V := by
          rcases List.mem_cons.mp hd with h | h
          · exact absurd h.symm ha
          · exact h
        have h2 := ih hd'
        simp only [sumDeg, List.map_cons, List.sum_cons] at h2
        omega

lemma dec_deps_measure (V : List String) :
    ∀ (ds : List String) (deg : String → Int),
      sumDeg V (dec_deps V ds deg).1 + (dec_deps V ds deg).2.length ≤ sumDeg V deg := by
  intro ds
  induction ds with
  | nil => intro deg; simp [dec_deps]
  | cons d ds ih =>
      intro deg
      rw [dec_deps]
      by_cases hd : d ∈ V
      · rw [if_pos hd]
        simp only [List.length_append]
        have hih := ih (Function.update deg d (deg d - 1))
        by_cases h1 : deg d - 1 = 0
        · have hlt := sumDeg_update_lt V deg d hd (by omega)
          simp only [if_pos h1, List.length_singleton]
          omega
        · have hle := sumDeg_update_le V deg d
          simp only [if_neg h1, List.length_nil]
          omega
      · rw [if_neg hd]
        exact ih deg

/-- Main loop of Kahn's algorithm (src/src/graph.rs lines 43-56): pop the
queue front, append it to the result, decrement its dependents and enqueue
those reaching degree zero. -/
def kahn_go (cfg : Config) (V : List String) :
    List String → (String → Int) → List String → List String
  | [], _, result => result
  | current :: rest, deg, result =>
      let s := dec_deps V (dependents_of cfg V current) deg
      kahn_go cfg V (rest ++ s.2) s.1 (result ++ [current])
termination_by q deg _ => q.length + sumDeg V deg
decreasing_by
  have h := dec_deps_measure V (dependents_of cfg V current) deg
  simp only [List.length_append, List.length_cons]
  omega

/-- Models topological_sort (src/src/graph.rs lines 7-63): collect the
required closure, run Kahn's algorithm over the required subgraph seeded with
the zero-in-degree tasks (modelling the map iteration in required order), and
report a circular dependency when the result is shorter than the closure. -/
def topological_sort (cfg : Config) (names : List String) : Except String (List String) :=
  match collect_required_tasks cfg names with
  | .error e => .error e
  | .ok V =>
      let result := kahn_go cfg V
        (V.filter (fun v => decide (in_degree_of cfg V v = 0)))
        (fun v => in_degree_of cfg V v) []
      if result.length ≠ V.length then
        .error "Circular dependency detected in task graph"
      else .ok result

/-- Number of still-unsatisfied in-required dependencies of v once the tasks
in result have been emitted; the quantity tracked by the in-degree map. -/
def remDeg (cfg : Config) (V : List String) (result : List String) (v : String) : Int :=
  (((depsOf cfg v).filter
    (fun d => decide (d ∈ V) && decide (d ∉ result))).length : Int)

lemma remDeg_nonneg (cfg : Config) (V result : List String) (v : String) :
    0 ≤ remDeg cfg V result v := Int.ofNat_nonneg _

lemma in_degree_of_eq_remDeg (cfg : Config) (V : List String) (v : String) :
    in_degree_of cfg V v = remDeg cfg V [] v := by
  rw [in_degree_of, remDeg]
  congr 2
  apply List.filter_congr
  intro d _
  simp

lemma remDeg_eq_zero_iff (cfg : Config) (V result : List String) (v : String) :
    remDeg cfg V result v = 0 ↔
      ∀ d ∈ depsOf cfg v, d ∈ V → d ∈ result := by
  rw [remDeg]
  rw [show ((((depsOf cfg v).filter
      (fun d => decide (d ∈ V) && decide (d ∉ result))).length : Int) = 0 ↔
      ((depsOf cfg v).filter
      (fun d => decide (d ∈ V) && decide (d ∉ result))).length = 0) from by omega]
  rw [List.length_eq_zero, List.filter_eq_nil_iff]
  constructor
  · intro h d hd hdV
    by_contra hdr
    exact h d hd (by simp [hdV, hdr])
  · intro h d hd
    simp only [Bool.and_eq_true, decide_eq_true_eq, not_and]
    intro hdV
    simpa using h d hd hdV

lemma remDeg_pos_iff (cfg : Config) (V result : List String) (v : String) :
    1 ≤ remDeg cfg V result v ↔
      ∃ d ∈ depsOf cfg v, d ∈ V ∧ d ∉ result := by
  have h0 := remDeg_nonneg cfg V result v
  have hz := remDeg_eq_zero_iff cfg V result v
  constructor
  · intro h1
    by_contra hno
    push_neg at hno
    have : remDeg cfg V result v = 0 := hz.mpr (fun d hd hdV => hno d hd hdV)
    omega
  · intro ⟨d, hd, hdV, hdr⟩
    rcases Int.lt_or_lt_of_ne (fun he => hdr ((hz.mp he.symm) d hd hdV)) with h | h
    · omega
    · omega

lemma length_filter_split (p q : String → Bool) (current : String)
    (hp : p current = true) (hq : q current = false)
    (hagree : ∀ d, d ≠ current → p d = q d) :
    ∀ l : List String, (l.filter p).length = (l.filter q).length + l.count current := by
  intro l
  induction l with
  | nil => simp
  | cons a l ih =>
      by_cases ha : a = current
      · subst ha
        rw [List.filter_cons_of_pos hp, List.filter_cons_of_neg (by simp [hq]),
          List.count_cons_self, List.length_cons]
        omega
      · rw [List.count_cons_of_ne (fun h => ha h.symm)]
        by_cases hpv : p a = true
        · rw [List.filter_cons_of_pos hpv,
            List.filter_cons_of_pos (by rw [← hagree a ha]; exact hpv),
            List.length_cons, List.length_cons]
          omega
        · rw [List.filter_cons_of_neg hpv,
            List.filter_cons_of_neg (by rw [← hagree a ha]; exact hpv)]
          exact ih

lemma remDeg_split (cfg : Config) (V : List String) (v current : String)
    (result : List String) (hcV : current ∈ V) (hcr : current ∉ result) :
    remDeg cfg V result v =
      remDeg cfg V (result ++ [current]) v + ((depsOf cfg v).count current : Int) := by
  rw [remDeg, remDeg]
  rw [length_filter_split
    (fun d => decide (d ∈ V) && decide (d ∉ result))
    (fun d => decide (d ∈ V) && decide (d ∉ result ++ [current]))
    current (by simp [hcV, hcr]) (by simp)
    (fun d hd => by
      have hiff : (d ∉ result ++ [current]) ↔ (d ∉ result) := by
        simp only [List.mem_append, List.mem_singleton, not_or]
        exact ⟨fun h => h.1, fun h => ⟨h, hd⟩⟩
      simp only [decide_eq_decide.mpr hiff])
    (depsOf cfg v)]
  push_cast
  ring

lemma dec_deps_deg (V : List String) :
    ∀ (ds : List String) (deg : String → Int) (v : String),
      (dec_deps V ds deg).1 v =
        deg v - (((ds.filter (fun d => decide (d ∈ V))).count v : Nat) : Int) := by
  intro ds
  induction ds with
  | nil => intro deg v; simp [dec_deps]
  | cons d ds ih =>
      intro deg v
      rw [dec_deps]
      by_cases hd : d ∈ V
      · rw [if_pos hd]
        simp only
        rw [ih (Function.update deg d (deg d - 1)) v]
        rw [List.filter_cons_of_pos (by simpa using hd)]
        by_cases hv : v = d
        · subst hv
          rw [Function.update_same, List.count_cons_self]
          push_cast
          ring
        · rw [Function.update_noteq hv, List.count_cons_of_ne hv]
      · rw [if_neg hd]
        rw [ih deg v, List.filter_cons_of_neg (by simpa using hd)]

lemma dec_deps_mem (V : List String) :
    ∀ (ds : List String) (deg : String → Int) (v : String),
      v ∈ (dec_deps V ds deg).2 ↔
        v ∈ V ∧ 1 ≤ deg v ∧
          deg v ≤ (((ds.filter (fun d => decide (d ∈ V))).count v : Nat) : Int) := by
  intro ds
  induction ds with
  | nil =>
      intro deg v
      simp [dec_deps]
      omega
  | cons d ds ih =>
      intro deg v
      rw [dec_deps]
      by_cases hd : d ∈ V
      · rw [if_pos hd]
        simp only [List.mem_append]
        rw [ih (Function.update deg d (deg d - 1)) v,
          List.filter_cons_of_pos (by simpa using hd)]
        by_cases hv : v = d
        · subst hv
          rw [Function.update_same, List.count_cons_self]
          by_cases hz : deg v - 1 = 0
          · rw [if_pos hz]
            constructor
            · intro _
              refine ⟨hd, by omega, by push_cast; omega⟩
            · intro _
              exact Or.inl (List.mem_singleton_self v)
          · rw [if_neg hz]
            constructor
            · intro h
              rcases h with h | ⟨h1, h2, h3⟩
              · exact absurd h (List.not_mem_nil v)
              · refine ⟨h1, by omega, ?_⟩
                push_cast at h3 ⊢
                omega
            · intro ⟨h1, h2, h3⟩
              right
              push_cast at h3 ⊢
              exact ⟨h1, by omega, by omega⟩
        · rw [Function.update_noteq hv, List.count_cons_of_ne hv]
          have hni : v ∉ (if deg d - 1 = 0 then [d] else []) := by
            by_cases hz : deg d - 1 = 0
            · rw [if_pos hz]
              simpa using hv
            · rw [if_neg hz]
              exact List.not_mem_nil v
          constructor
          · intro h
            rcases h with h | h
            · exact absurd h hni
            · exact h
          · intro h
            exact Or.inr h
      · rw [if_neg hd]
        rw [ih deg v, List.filter_cons_of_neg (by simpa using hd)]

lemma dec_deps_nodup (V : List String) :
    ∀ (ds : List String) (deg : String → Int), (dec_deps V ds deg).2.Nodup := by
  intro ds
  induction ds with
  | nil => intro deg; simp [dec_deps]
  | cons d ds ih =>
      intro deg
      rw [dec_deps]
      by_cases hd : d ∈ V
      · rw [if_pos hd]
        simp only
        by_cases hz : deg d - 1 = 0
        · rw [if_pos hz, List.singleton_append, List.nodup_cons]
          refine ⟨?_, ih _⟩
          rw [dec_deps_mem]
          rintro ⟨-, h1, -⟩
          rw [Function.update_same] at h1
          omega
        · rw [if_neg hz, List.nil_append]
          exact ih _
      · rw [if_neg hd]
        exact ih deg

lemma dependents_of_subset (cfg : Config) (V : List String) (current : String) :
    ∀ x ∈ dependents_of cfg V current, x ∈ V := by
  intro x hx
  rw [dependents_of, List.mem_flatMap] at hx
  obtain ⟨name, hname, hmem⟩ := hx
  rw [List.mem_map] at hmem
  obtain ⟨_, _, rfl⟩ := hmem
  exact hname

lemma count_flatMap (f : String → List String) (v : String) :
    ∀ L : List String, (L.flatMap f).count v = (L.map (fun a => (f a).count v)).sum := by
  intro L
  induction L with
  | nil => simp
  | cons a L ih =>
      rw [List.flatMap_cons, List.count_append, List.map_cons, List.sum_cons, ih]

lemma length_filter_beq (V : List String) (current : String) (hcV : current ∈ V) :
    ∀ l : List String,
      (l.filter (fun dep => dep == current && decide (dep ∈ V))).length =
        l.count current := by
  intro l
  induction l with
  | nil => simp
  | cons a l ih =>
      by_cases ha : a = current
      · rw [List.filter_cons_of_pos (by simp [ha, hcV]), List.length_cons, ih,
          List.count_cons, if_pos (by simp [ha])]
      · rw [List.filter_cons_of_neg (by simp [ha]), ih, List.count_cons,
          if_neg (by simp only [beq_iff_eq]; exact ha), Nat.add_zero]

lemma sum_ite_zero (g : String → Nat) (v : String) :
    ∀ M : List String, v ∉ M →
      (M.map (fun name => if v = name then g name else 0)).sum = 0 := by
  intro M
  induction M with
  | nil => intro _; rfl
  | cons a M ih =>
      intro hv
      rw [List.map_cons, List.sum_cons,
        if_neg (fun h => hv (by rw [h]; exact List.mem_cons_self _ _)), Nat.zero_add]
      exact ih (fun h => hv (List.mem_cons_of_mem _ h))

lemma sum_ite_single (g : String → Nat) (v : String) :
    ∀ L : List String, L.Nodup → v ∈ L →
      (L.map (fun name => if v = name then g name else 0)).sum = g v := by
  intro L
  induction L with
  | nil => intro _ h; cases h
  | cons a L ih =>
      intro hnd hmem
      rw [List.map_cons, List.sum_cons]
      rw [List.nodup_cons] at hnd
      by_cases ha : v = a
      · rw [if_pos ha, sum_ite_zero g v L (by rw [ha]; exact hnd.1), Nat.add_zero, ha]
      · rw [if_neg ha, Nat.zero_add]
        exact ih hnd.2 (by
          rcases List.mem_cons.mp hmem with h | h
          · exact absurd h ha
          · exact h)

lemma count_dependents_of (cfg : Config) (V : List String) (hVnd : V.Nodup)
    (current v : String) (hcV : current ∈ V) (hvV : v ∈ V) :
    (dependents_of cfg V current).count v = (depsOf cfg v).count current := by
  rw [dependents_of, count_flatMap]
  have hterm : ∀ name : String,
      (((depsOf cfg name).filter (fun dep => dep == current && decide (dep ∈ V))).map
          (fun _ => name)).count v =
        if v = name then (depsOf cfg name).count current else 0 := by
    intro name
    have hrep : ∀ (l : List String), l.map (fun _ => name) = List.replicate l.length name := by
      intro l
      induction l with
      | nil => rfl
      | cons a l ih => simp [List.replicate_succ, ih]
    rw [hrep, List.count_replicate, length_filter_beq V current hcV]
    by_cases hv : v = name
    · simp [hv]
    · simp [hv, Ne.symm hv]
  rw [List.map_congr_left (fun name _ => hterm name)]
  exact sum_ite_single (fun name => (depsOf cfg name).count current) v V hVnd hvV

lemma filter_dependents (cfg : Config) (V : List String) (current : String) :
    (dependents_of cfg V current).filter (fun d => decide (d ∈ V)) =
      dependents_of cfg V current := by
  rw [List.filter_eq_self]
  intro a ha
  simpa using dependents_of_subset cfg V current a ha

lemma result_closed_of_ordered (cfg : Config) (V result : List String)
    (hord : ∀ i (hi : i < result.length),
      ∀ d ∈ depsOf cfg (result.get ⟨i, hi⟩), d ∈ V → d ∈ result.take i) :
    ∀ v ∈ result, ∀ d ∈ depsOf cfg v, d ∈ V → d ∈ result := by
  intro v hv d hd hdV
  obtain ⟨n, hn⟩ := List.mem_iff_get.mp hv
  have := hord n.1 n.2 d (by rw [hn]; exact hd) hdV
  exact List.take_subset _ _ this

lemma kahn_go_spec (cfg : Config) (V : List String) (hVnd : V.Nodup) :
    ∀ (queue : List String) (deg : String → Int) (result : List String),
      (result ++ queue).Nodup →
      (∀ n ∈ result ++ queue, n ∈ V) →
      (∀ v ∈ V, deg v = remDeg cfg V result v) →
      (∀ v, v ∈ queue ↔ v ∈ V ∧ v ∉ result ∧
        (∀ d ∈ depsOf cfg v, d ∈ V → d ∈ result)) →
      (∀ i (hi : i < result.length),
        ∀ d ∈ depsOf cfg (result.get ⟨i, hi⟩), d ∈ V → d ∈ result.take i) →
      (kahn_go cfg V queue deg result).Nodup ∧
      (∀ n ∈ kahn_go cfg V queue deg result, n ∈ V) ∧
      (∀ i (hi : i < (kahn_go cfg V queue deg result).length),
        ∀ d ∈ depsOf cfg ((kahn_go cfg V queue deg result).get ⟨i, hi⟩), d ∈ V →
          d ∈ (kahn_go cfg V queue deg result).take i) ∧
      (∀ v ∈ V, v ∉ kahn_go cfg V queue deg result →
        ∃ d ∈ depsOf cfg v, d ∈ V ∧ d ∉ kahn_go cfg V queue deg result) := by
  intro queue deg result
  induction queue, deg, result using kahn_go.induct cfg V with
  | case1 deg result =>
      intro hnd hsubV hdeg hq hord
      rw [kahn_go]
      rw [List.append_nil] at hnd hsubV
      refine ⟨hnd, hsubV, hord, ?_⟩
      intro v hvV hvr
      have := (hq v).not.mp (List.not_mem_nil v)
      push_neg at this
      obtain ⟨d, hd, hdV, hdr⟩ := this hvV hvr
      exact ⟨d, hd, hdV, hdr⟩
  | case2 current rest deg result s ih =>
      intro hnd hsubV hdeg hq hord
      rw [kahn_go]
      simp only [show s = dec_deps V (dependents_of cfg V current) deg from rfl] at ih ⊢
      obtain ⟨hcV, hcnr, hcdeps⟩ := (hq current).mp (List.mem_cons_self _ _)
      have hassoc : result ++ current :: rest = (result ++ [current]) ++ rest := by
        simp
      have hclosed := result_closed_of_ordered cfg V result hord
      -- characterization of the enqueued nodes
      have hcnt : ∀ v ∈ V,
          (((dependents_of cfg V current).filter (fun d => decide (d ∈ V))).count v : Int) =
            ((depsOf cfg v).count current : Int) := by
        intro v hvV
        rw [filter_dependents, count_dependents_of cfg V hVnd current v hcV hvV]
      have hdeg' : ∀ v ∈ V,
          (dec_deps V (dependents_of cfg V current) deg).1 v =
            remDeg cfg V (result ++ [current]) v := by
        intro v hvV
        rw [dec_deps_deg, hcnt v hvV, hdeg v hvV,
          remDeg_split cfg V v current result hcV hcnr]
        ring
      have hmem2 : ∀ v, v ∈ (dec_deps V (dependents_of cfg V current) deg).2 ↔
          v ∈ V ∧ remDeg cfg V (result ++ [current]) v = 0 ∧
            1 ≤ remDeg cfg V result v := by
        intro v
        rw [dec_deps_mem]
        constructor
        · intro ⟨hvV, h1, h2⟩
          rw [hdeg v hvV] at h1 h2
          rw [hcnt v hvV] at h2
          have hs := remDeg_split cfg V v current result hcV hcnr
          have h0 := remDeg_nonneg cfg V (result ++ [current]) v
          exact ⟨hvV, by omega, h1⟩
        · intro ⟨hvV, h1, h2⟩
          rw [hdeg v hvV, hcnt v hvV]
          have hs := remDeg_split cfg V v current result hcV hcnr
          have h0 := remDeg_nonneg cfg V (result ++ [current]) v
          exact ⟨hvV, h2, by omega⟩
      have hpush_not_result : ∀ v, v ∈ (dec_deps V (dependents_of cfg V current) deg).2 →
          v ∉ result := by
        intro v hv hvr
        obtain ⟨hvV, -, h2⟩ := (hmem2 v).mp hv
        have : remDeg cfg V result v = 0 :=
          (remDeg_eq_zero_iff cfg V result v).mpr (hclosed v hvr)
        omega
      have hpush_ne_current : ∀ v, v ∈ (dec_deps V (dependents_of cfg V current) deg).2 →
          v ≠ current := by
        intro v hv hvc
        obtain ⟨hvV, -, h2⟩ := (hmem2 v).mp hv
        rw [hvc] at h2
        have : remDeg cfg V result current = 0 :=
          (remDeg_eq_zero_iff cfg V result current).mpr hcdeps
        omega
      have hpush_not_rest : ∀ v, v ∈ (dec_deps V (dependents_of cfg V current) deg).2 →
          v ∉ rest := by
        intro v hv hvrest
        obtain ⟨hvV, -, h2⟩ := (hmem2 v).mp hv
        obtain ⟨-, -, hsub⟩ := (hq v).mp (List.mem_cons_of_mem _ hvrest)
        have : remDeg cfg V result v = 0 :=
          (remDeg_eq_zero_iff cfg V result v).mpr hsub
        omega
      have hcur_not_rest : current ∉ rest := by
        have := hnd
        rw [List.nodup_append] at this
        exact (List.nodup_cons.mp this.2.1).1
      have heq2 : (result ++ [current]) ++
          (rest ++ (dec_deps V (dependents_of cfg V current) deg).2) =
          (result ++ current :: rest) ++
            (dec_deps V (dependents_of cfg V current) deg).2 := by
        simp
      -- new invariants
      refine ih ?_ ?_ hdeg' ?_ ?_
      · -- nodup of the new result ++ queue
        rw [heq2, List.nodup_append]
        refine ⟨hnd, dec_deps_nodup V _ deg, ?_⟩
        intro a ha ha2
        rcases List.mem_append.mp ha with h | h
        · exact hpush_not_result a ha2 h
        · rcases List.mem_cons.mp h with h | h
          · exact hpush_ne_current a ha2 h
          · exact hpush_not_rest a ha2 h
      · -- everything in V
        rw [heq2]
        intro n hn
        rcases List.mem_append.mp hn with h | h
        · exact hsubV n h
        · exact ((hmem2 n).mp h).1
      · -- queue characterization
        intro v
        constructor
        · intro hv
          rcases List.mem_append.mp hv with h | h
          · obtain ⟨hvV, hvnr, hsub⟩ := (hq v).mp (List.mem_cons_of_mem _ h)
            refine ⟨hvV, ?_, fun d hd hdV => List.mem_append.mpr (Or.inl (hsub d hd hdV))⟩
            intro hvr
            rcases List.mem_append.mp hvr with h2 | h2
            · exact hvnr h2
            · exact hcur_not_rest ((List.mem_singleton.mp h2) ▸ h)
          · obtain ⟨hvV, hzero, hpos⟩ := (hmem2 v).mp h
            refine ⟨hvV, ?_, (remDeg_eq_zero_iff cfg V _ v).mp hzero⟩
            intro hvr
            rcases List.mem_append.mp hvr with h2 | h2
            · exact hpush_not_result v h h2
            · exact hpush_ne_current v h (List.mem_singleton.mp h2)
        · intro ⟨hvV, hvnr', hsub'⟩
          have hvnr : v ∉ result := fun h => hvnr' (List.mem_append.mpr (Or.inl h))
          have hvnc : v ≠ current := fun h =>
            hvnr' (List.mem_append.mpr (Or.inr (by rw [h]; exact List.mem_singleton_self _)))
          by_cases hsub : ∀ d ∈ depsOf cfg v, d ∈ V → d ∈ result
          · have hvq := (hq v).mpr ⟨hvV, hvnr, hsub⟩
            rcases List.mem_cons.mp hvq with h | h
            · exact absurd h hvnc
            · exact List.mem_append.mpr (Or.inl h)
          · push_neg at hsub
            obtain ⟨d, hd, hdV, hdr⟩ := hsub
            refine List.mem_append.mpr (Or.inr ((hmem2 v).mpr ⟨hvV, ?_, ?_⟩))
            · exact (remDeg_eq_zero_iff cfg V _ v).mpr hsub'
            · exact (remDeg_pos_iff cfg V result v).mpr ⟨d, hd, hdV, hdr⟩
      · -- order invariant extended by current
        intro i hi d hd hdV
        rw [List.length_append, List.length_singleton] at hi
        have htake : ∀ j, j ≤ result.length →
            (result ++ [current]).take j = result.take j := by
          intro j hj
          rw [List.take_append_eq_append_take]
          have : j - result.length = 0 := by omega
          rw [this, List.take_zero, List.append_nil]
        by_cases hi2 : i < result.length
        · have hget : (result ++ [current]).get ⟨i, by
              rw [List.length_append, List.length_singleton]; omega⟩ =
              result.get ⟨i, hi2⟩ := List.get_append i hi2
          rw [hget] at hd
          rw [htake i (by omega)]
          exact hord i hi2 d hd hdV
        · have hieq : i = result.length := by omega
          have hget : (result ++ [current]).get ⟨i, by
              rw [List.length_append, List.length_singleton]; omega⟩ = current := by
            rw [List.get_eq_getElem]
            subst hieq
            exact List.getElem_concat_length _ _ _ rfl _
          rw [hget] at hd
          rw [hieq, htake result.length (le_refl _), List.take_length]
          exact hcdeps d hd hdV

lemma cycle_of_all_have_step (S : List String) (hne : S ≠ [])
    (R : String → String → Prop) (hstep : ∀ v ∈ S, ∃ d ∈ S, R v d) :
    ∃ c ∈ S, Relation.TransGen R c c := by
  classical
  let g : {x : String // x ∈ S} → {x : String // x ∈ S} := fun p =>
    ⟨(hstep p.1 p.2).choose, (hstep p.1 p.2).choose_spec.1⟩
  let x0 : {x : String // x ∈ S} := ⟨S.head hne, List.head_mem hne⟩
  let f : Nat → {x : String // x ∈ S} := fun n => g^[n] x0
  have hstepf : ∀ n, R (f n).1 (f (n + 1)).1 := by
    intro n
    have h1 : f (n + 1) = g (f n) := Function.iterate_succ_apply' g n x0
    rw [h1]
    exact (hstep (f n).1 (f n).2).choose_spec.2
  have hchain : ∀ i j, i < j → Relation.TransGen R (f i).1 (f j).1 := by
    intro i j hij
    induction j with
    | zero => omega
    | succ j ih =>
        rcases Nat.lt_succ_iff_lt_or_eq.mp hij with h | h
        · exact (ih h).tail (hstepf j)
        · rw [h]
          exact Relation.TransGen.single (hstepf j)
  have hpigeon : ∃ i ∈ Finset.range (S.length + 1), ∃ j ∈ Finset.range (S.length + 1),
      i ≠ j ∧ (f i).1 = (f j).1 := by
    apply Finset.exists_ne_map_eq_of_card_lt_of_maps_to
    · rw [Finset.card_range]
      exact Nat.lt_succ_of_le S.toFinset_card_le
    · intro a _
      rw [List.mem_toFinset]
      exact (f a).2
  obtain ⟨i, -, j, -, hij, hfij⟩ := hpigeon
  rcases Nat.lt_or_ge i j with h | h
  · exact ⟨(f i).1, (f i).2, hfij ▸ hchain i j h⟩
  · have h2 : j < i := by omega
    exact ⟨(f j).1, (f j).2, hfij ▸ hchain j i h2⟩

/-- Dependency edge inside the required subgraph: both endpoints required, b
listed among the dependencies of a. -/
def EdgeIn (cfg : Config) (V : List String) (a b : String) : Prop :=
  a ∈ V ∧ b ∈ V ∧ b ∈ depsOf cfg a

/-- A circular dependency within the required subgraph. -/
def HasCycle (cfg : Config) (V : List String) : Prop :=
  ∃ c, Relation.TransGen (EdgeIn cfg V) c c

lemma indexOf_lt_of_mem_take (b : String) :
    ∀ (l : List String) (i : Nat), b ∈ l.take i → l.indexOf b < i := by
  intro l
  induction l with
  | nil => intro i h; simp at h
  | cons a l ih =>
      intro i h
      cases i with
      | zero => simp at h
      | succ i =>
          rw [List.take_succ_cons] at h
          by_cases hb : b = a
          · rw [hb, List.indexOf_cons_self]
            omega
          · rcases List.mem_cons.mp h with h2 | h2
            · exact absurd h2 hb
            · have h3 := ih i h2
              rw [List.indexOf_cons_ne _ (Ne.symm hb)]
              omega

lemma ordered_indexOf (cfg : Config) (V R : List String)
    (hord : ∀ i (hi : i < R.length),
      ∀ d ∈ depsOf cfg (R.get ⟨i, hi⟩), d ∈ V → d ∈ R.take i) :
    ∀ v ∈ R, ∀ d ∈ depsOf cfg v, d ∈ V → R.indexOf d < R.indexOf v := by
  intro v hv d hd hdV
  have hlt : R.indexOf v < R.length := List.indexOf_lt_length.mpr hv
  have hget : R.get ⟨R.indexOf v, hlt⟩ = v := List.indexOf_get hlt
  have htake := hord (R.indexOf v) hlt d (by rw [hget]; exact hd) hdV
  exact indexOf_lt_of_mem_take d R (R.indexOf v) htake

lemma no_cycle_of_ordered (cfg : Config) (V R : List String)
    (hall : ∀ x ∈ V, x ∈ R)
    (hord : ∀ i (hi : i < R.length),
      ∀ d ∈ depsOf cfg (R.get ⟨i, hi⟩), d ∈ V → d ∈ R.take i) :
    ¬ HasCycle cfg V := by
  intro ⟨c, hc⟩
  have hrank : ∀ a b, Relation.TransGen (EdgeIn cfg V) a b →
      R.indexOf b < R.indexOf a := by
    intro a b h
    induction h with
    | single h1 =>
        obtain ⟨haV, hbV, hbd⟩ := h1
        exact ordered_indexOf cfg V R hord _ (hall _ haV) _ hbd hbV
    | tail h1 h2 ih =>
        obtain ⟨hbV, hcV, hcd⟩ := h2
        have := ordered_indexOf cfg V R hord _ (hall _ hbV) _ hcd hcV
        omega
  exact absurd (hrank c c hc) (lt_irrefl _)

/-- C2: for a valid configuration, topological_sort returns an ordering that
is a permutation of the required transitive closure (so of equal length) in
which every in-closure dependency of a task sits at a strictly earlier index,
and it returns the circular-dependency error exactly when the required
subgraph contains a cycle.  The first conjunct identifies the required set V,
as computed by collect_required_tasks, with the reflexive-transitive closure
of the requested names under depends_on. -/
lemma kahn_initial_spec (cfg : Config) (V : List String) (hVnd : V.Nodup) :
    (kahn_go cfg V (V.filter (fun v => decide (in_degree_of cfg V v = 0)))
        (fun v => in_degree_of cfg V v) []).Nodup ∧
    (∀ n ∈ kahn_go cfg V (V.filter (fun v => decide (in_degree_of cfg V v = 0)))
        (fun v => in_degree_of cfg V v) [], n ∈ V) ∧
    (∀ i (hi : i < (kahn_go cfg V
          (V.filter (fun v => decide (in_degree_of cfg V v = 0)))
          (fun v => in_degree_of cfg V v) []).length),
      ∀ d ∈ depsOf cfg ((kahn_go cfg V
          (V.filter (fun v => decide (in_degree_of cfg V v = 0)))
          (fun v => in_degree_of cfg V v) []).get ⟨i, hi⟩), d ∈ V →
        d ∈ (kahn_go cfg V (V.filter (fun v => decide (in_degree_of cfg V v = 0)))
          (fun v => in_degree_of cfg V v) []).take i) ∧
    (∀ v ∈ V, v ∉ kahn_go cfg V (V.filter (fun v => decide (in_degree_of cfg V v = 0)))
        (fun v => in_degree_of cfg V v) [] →
      ∃ d ∈ depsOf cfg v, d ∈ V ∧
        d ∉ kahn_go cfg V (V.filter (fun v => decide (in_degree_of cfg V v = 0)))
          (fun v => in_degree_of cfg V v) []) := by
  apply kahn_go_spec cfg V hVnd
  · rw [List.nil_append]
    exact hVnd.filter _
  · rw [List.nil_append]
    intro n hn
    exact List.mem_of_mem_filter hn
  · exact fun v _ => in_degree_of_eq_remDeg cfg V v
  · intro v
    rw [List.mem_filter]
    constructor
    · intro ⟨hvV, hz⟩
      refine ⟨hvV, List.not_mem_nil v, ?_⟩
      have : in_degree_of cfg V v = 0 := by simpa using hz
      rw [in_degree_of_eq_remDeg] at this
      exact (remDeg_eq_zero_iff cfg V [] v).mp this
    · intro ⟨hvV, h2, hsub⟩
      refine ⟨hvV, ?_⟩
      have : remDeg cfg V [] v = 0 := (remDeg_eq_zero_iff cfg V [] v).mpr hsub
      rw [← in_degree_of_eq_remDeg] at this
      simpa using this
  · intro i hi
    simp at hi

lemma cycle_of_missing (cfg : Config) (V R : List String)
    (hmiss : ∀ v ∈ V, v ∉ R → ∃ d ∈ depsOf cfg v, d ∈ V ∧ d ∉ R)
    (hne : ∃ v ∈ V, v ∉ R) : HasCycle cfg V := by
  obtain ⟨v0, hv0V, hv0R⟩ := hne
  have hSne : V.filter (fun x => decide (x ∉ R)) ≠ [] := by
    intro hnil
    have : v0 ∈ V.filter (fun x => decide (x ∉ R)) := by
      rw [List.mem_filter]
      exact ⟨hv0V, by simpa using hv0R⟩
    rw [hnil] at this
    cases this
  obtain ⟨c, hcS, hcyc⟩ := cycle_of_all_have_step
    (V.filter (fun x => decide (x ∉ R))) hSne (EdgeIn cfg V)
    (by
      intro v hv
      rw [List.mem_filter] at hv
      obtain ⟨hvV, hvR⟩ := hv
      obtain ⟨d, hd, hdV, hdR⟩ := hmiss v hvV (by simpa using hvR)
      refine ⟨d, ?_, hvV, hdV, hd⟩
      rw [List.mem_filter]
      exact ⟨hdV, by simpa using hdR⟩)
  exact ⟨c, hcyc⟩

theorem topological_sort_spec (cfg : Config) (names : List String) (V : List String)
    (hcollect : collect_required_tasks cfg names = .ok V) :
    (∀ n, n ∈ V ↔ ∃ s ∈ names, Relation.ReflTransGen (DepStep cfg) s n) ∧
    (¬ HasCycle cfg V →
      ∃ order, topological_sort cfg names = .ok order ∧
        order.Perm V ∧ order.length = V.length ∧
        (∀ v ∈ order, ∀ d ∈ depsOf cfg v, d ∈ V →
          order.indexOf d < order.indexOf v)) ∧
    (HasCycle cfg V →
      topological_sort cfg names = .error "Circular dependency detected in task graph") := by
  obtain ⟨hVnd, hVsome, hVmem⟩ := collect_required_tasks_spec cfg names V hcollect
  obtain ⟨hRnd, hRV, hRord, hRmiss⟩ := kahn_initial_spec cfg V hVnd
  set R := kahn_go cfg V (V.filter (fun v => decide (in_degree_of cfg V v = 0)))
    (fun v => in_degree_of cfg V v) [] with hR
  refine ⟨hVmem, ?_⟩
  by_cases hlen : R.length = V.length
  · have hperm : R.Perm V :=
      (hRnd.subperm hRV).perm_of_length_le (by omega)
    have hnoc : ¬ HasCycle cfg V :=
      no_cycle_of_ordered cfg V R (fun x hx => hperm.mem_iff.mpr hx) hRord
    refine ⟨fun _ => ⟨R, ?_, hperm, hlen, ?_⟩, fun hc => absurd hc hnoc⟩
    · rw [topological_sort, hcollect]
      simp only [← hR, if_neg (by omega : ¬ R.length ≠ V.length)]
    · intro v hv d hd hdV
      exact ordered_indexOf cfg V R hRord v hv d hd hdV
  · have hmissing : ∃ v ∈ V, v ∉ R := by
      by_contra hno
      push_neg at hno
      have hle : V.length ≤ R.length := (hVnd.subperm hno).length_le
      have hge : R.length ≤ V.length := (hRnd.subperm hRV).length_le
      omega
    have hcyc : HasCycle cfg V := cycle_of_missing cfg V R hRmiss hmissing
    refine ⟨fun hnc => absurd hcyc hnc, fun _ => ?_⟩
    rw [topological_sort, hcollect]
    simp only [← hR, if_pos (by omega : R.length ≠ V.length)]

lemma topological_sort_ok_spec (cfg : Config) (names V R : List String)
    (hcollect : collect_required_tasks cfg names = .ok V)
    (hok : topological_sort cfg names = .ok R) :
    R.Perm V ∧ R.Nodup ∧ ¬ HasCycle cfg V := by
  obtain ⟨hVnd, hVsome, hVmem⟩ := collect_required_tasks_spec cfg names V hcollect
  obtain ⟨hRnd, hRV, hRord, hRmiss⟩ := kahn_initial_spec cfg V hVnd
  set R0 := kahn_go cfg V (V.filter (fun v => decide (in_degree_of cfg V v = 0)))
    (fun v => in_degree_of cfg V v) [] with hR0
  rw [topological_sort, hcollect] at hok
  simp only [← hR0] at hok
  by_cases hlen : R0.length = V.length
  · rw [if_neg (by omega : ¬ R0.length ≠ V.length)] at hok
    injection hok with hok
    subst hok
    have hperm : R0.Perm V :=
      (hRnd.subperm hRV).perm_of_length_le (by omega)
    exact ⟨hperm, hRnd,
      no_cycle_of_ordered cfg V R0 (fun x hx => hperm.mem_iff.mpr hx) hRord⟩
  · rw [if_pos (by omega : R0.length ≠ V.length)] at hok
    cases hok

/-- Two-task demo configuration mirroring the build/test example of the
repository tests: test depends on build and build watches the sources. -/
def demoConfig : Config :=
  [("build",
    { cmd := "cargo build", cwd := none, watch := ["src/x.rs"], depends_on := [],
      background := false, category := none, retry := 0, retry_delay_ms := 0,
      env := [], inputs := [] }),
   ("test",
    { cmd := "cargo test", cwd := none, watch := [], depends_on := ["build"],
      background := false, category := none, retry := 0, retry_delay_ms := 0,
      env := [], inputs := [] })]

lemma demo_collect :
    collect_required_tasks demoConfig ["test"] = .ok ["test", "build"] := by
  simp [collect_required_tasks, collect_required_tasks_go, demoConfig, getTask,
    List.find?]

lemma demo_toposort :
    topological_sort demoConfig ["test"] = .ok ["build", "test"] := by
  rw [topological_sort, demo_collect]
  simp [kahn_go, dec_deps, in_degree_of, depsOf, getTask, demoConfig, dependents_of,
    Function.update]

/-- Witness for C2 at the demo configuration: running topological_sort on the
test task yields an ordering of the two-task closure with build before
test. -/
theorem topological_sort_spec_witness :
    ∃ order, topological_sort demoConfig ["test"] = .ok order ∧
      order.Perm ["test", "build"] ∧
      order.length = (["test", "build"] : List String).length ∧
      (∀ v ∈ order, ∀ d ∈ depsOf demoConfig v,
        d ∈ (["test", "build"] : List String) →
        order.indexOf d < order.indexOf v) := by
  have h := topological_sort_spec demoConfig ["test"] ["test", "build"] demo_collect
  apply h.2.1
  intro hc
  have herr := h.2.2 hc
  rw [demo_toposort] at herr
  simp at herr

/-- In-degree count of the execution-level calculator, built over the
toposorted task list with the same membership restriction
(src/src/execution/parallel.rs lines 26-42); usize is modelled as Nat. -/
def in_degree_nat (cfg : Config) (T : List String) (name : String) : Nat :=
  ((depsOf cfg name).filter (fun dep => decide (dep ∈ T))).length

/-- Nat variant of remDeg for the level loop. -/
def remDegN (cfg : Config) (T P : List String) (v : String) : Nat :=
  ((depsOf cfg v).filter (fun d => decide (d ∈ T) && decide (d ∉ P))).length

/-- Decrements applied while removing one finished task: each of its
dependents present in the in-degree map is decremented with saturating
subtraction (src/src/execution/parallel.rs lines 61-70). -/
def decNatDeps (T : List String) (ds : List String) (deg : String → Nat) : String → Nat :=
  ds.foldl (fun g d => if d ∈ T then Function.update g d (g d - 1) else g) deg

/-- Degree map after removing a whole level
(src/src/execution/parallel.rs lines 61-70). -/
def dec_level_deps (cfg : Config) (T : List String) (level : List String)
    (deg : String → Nat) : String → Nat :=
  level.foldl (fun g t => decNatDeps T (dependents_of cfg T t) g) deg

/-- The current_level selection of the level loop: all remaining tasks whose
in-degree has dropped to zero (src/src/execution/parallel.rs lines 46-50). -/
def current_level (remaining : List String) (deg : String → Nat) : List String :=
  remaining.filter (fun t => decide (deg t = 0))

/-- Level loop of calculate_execution_levels (src/src/execution/parallel.rs
lines 44-75): collect all remaining tasks of in-degree zero as one level,
fail on an empty live level, else remove them, decrement their dependents and
recurse. -/
def levels_go (cfg : Config) (T : List String) :
    (String → Nat) → List String → List (List String) →
    Except String (List (List String))
  | deg, remaining, levels =>
      if remaining = [] then .ok levels
      else if hcur : current_level remaining deg = [] then
        .error "Circular dependency detected"
      else
        levels_go cfg T (dec_level_deps cfg T (current_level remaining deg) deg)
          (remaining.filter (fun t => decide (t ∉ current_level remaining deg)))
          (levels ++ [current_level remaining deg])
termination_by deg remaining levels => remaining.length
decreasing_by
  have hx : (current_level remaining deg).head hcur ∈ current_level remaining deg :=
    List.head_mem hcur
  have hxr : (current_level remaining deg).head hcur ∈ remaining :=
    List.mem_of_mem_filter hx
  apply List.length_filter_lt_length_iff_exists.mpr
  exact ⟨(current_level remaining deg).head hcur, hxr, by simpa using hx⟩

/-- Models calculate_execution_levels (src/src/execution/parallel.rs lines
16-76): topologically sort the requested tasks (erroring on a cycle), then
group them into levels of simultaneously dispatchable tasks. -/
def calculate_execution_levels (cfg : Config) (names : List String) :
    Except String (List (List String)) :=
  match topological_sort cfg names with
  | .error e => .error e
  | .ok all_tasks =>
      levels_go cfg all_tasks (fun v => in_degree_nat cfg all_tasks v) all_tasks []

lemma in_degree_nat_eq_remDegN (cfg : Config) (T : List String) (v : String) :
    in_degree_nat cfg T v = remDegN cfg T [] v := by
  rw [in_degree_nat, remDegN]
  congr 1
  apply List.filter_congr
  intro d _
  simp

lemma remDegN_eq_zero_iff (cfg : Config) (T P : List String) (v : String) :
    remDegN cfg T P v = 0 ↔ ∀ d ∈ depsOf cfg v, d ∈ T → d ∈ P := by
  rw [remDegN, List.length_eq_zero, List.filter_eq_nil_iff]
  constructor
  · intro h d hd hdT
    by_contra hdp
    exact h d hd (by simp [hdT, hdp])
  · intro h d hd
    simp only [Bool.and_eq_true, decide_eq_true_eq, not_and]
    intro hdT
    simpa using h d hd hdT

lemma remDegN_split (cfg : Config) (T : List String) (v t : String)
    (P : List String) (htT : t ∈ T) (htP : t ∉ P) :
    remDegN cfg T P v = remDegN cfg T (P ++ [t]) v + (depsOf cfg v).count t := by
  rw [remDegN, remDegN]
  exact length_filter_split
    (fun d => decide (d ∈ T) && decide (d ∉ P))
    (fun d => decide (d ∈ T) && decide (d ∉ P ++ [t]))
    t (by simp [htT, htP]) (by simp)
    (fun d hd => by
      have hiff : (d ∉ P ++ [t]) ↔ (d ∉ P) := by
        simp only [List.mem_append, List.mem_singleton, not_or]
        exact ⟨fun h => h.1, fun h => ⟨h, hd⟩⟩
      simp only [decide_eq_decide.mpr hiff])
    (depsOf cfg v)

lemma decNatDeps_val (T : List String) :
    ∀ (ds : List String) (deg : String → Nat) (v : String),
      decNatDeps T ds deg v =
        deg v - (ds.filter (fun d => decide (d ∈ T))).count v := by
  intro ds
  induction ds with
  | nil => intro deg v; simp [decNatDeps]
  | cons d ds ih =>
      intro deg v
      rw [decNatDeps, List.foldl_cons]
      by_cases hd : d ∈ T
      · rw [if_pos hd]
        have hrec := ih (Function.update deg d (deg d - 1)) v
        rw [decNatDeps] at hrec
        rw [hrec, List.filter_cons_of_pos (by simpa using hd)]
        by_cases hv : v = d
        · subst hv
          rw [Function.update_same, List.count_cons_self, Nat.sub_sub,
            Nat.add_comm 1 _]
        · rw [Function.update_noteq hv, List.count_cons_of_ne hv]
      · rw [if_neg hd]
        have hrec := ih deg v
        rw [decNatDeps] at hrec
        rw [hrec, List.filter_cons_of_neg (by simpa using hd)]

lemma dec_level_remDeg (cfg : Config) (T : List String) (hTnd : T.Nodup) :
    ∀ (level P : List String) (deg : String → Nat),
      level.Nodup → (∀ t ∈ level, t ∈ T) → (∀ t ∈ level, t ∉ P) →
      (∀ v ∈ T, deg v = remDegN cfg T P v) →
      ∀ v ∈ T, dec_level_deps cfg T level deg v = remDegN cfg T (P ++ level) v := by
  intro level
  induction level with
  | nil =>
      intro P deg _ _ _ hdeg v hv
      rw [dec_level_deps, List.foldl_nil, List.append_nil]
      exact hdeg v hv
  | cons t level ih =>
      intro P deg hnd hsub hdis hdeg v hv
      rw [dec_level_deps, List.foldl_cons]
      have htT : t ∈ T := hsub t (List.mem_cons_self _ _)
      have htP : t ∉ P := hdis t (List.mem_cons_self _ _)
      have hmid : ∀ w ∈ T, decNatDeps T (dependents_of cfg T t) deg w =
          remDegN cfg T (P ++ [t]) w := by
        intro w hw
        rw [decNatDeps_val, filter_dependents,
          count_dependents_of cfg T hTnd t w htT hw, hdeg w hw,
          remDegN_split cfg T w t P htT htP]
        omega
      have hrec := ih (P ++ [t]) (decNatDeps T (dependents_of cfg T t) deg)
        (List.nodup_cons.mp hnd).2
        (fun x hx => hsub x (List.mem_cons_of_mem _ hx))
        (fun x hx => by
          rw [List.mem_append, List.mem_singleton]
          rintro (h | h)
          · exact hdis x (List.mem_cons_of_mem _ hx) h
          · exact (List.nodup_cons.mp hnd).1 (h ▸ hx))
        hmid v hv
      rw [dec_level_deps] at hrec
      rw [hrec]
      congr 1
      simp

lemma levels_go_spec (cfg : Config) (T : List String) (hTnd : T.Nodup) :
    ∀ (deg : String → Nat) (remaining : List String) (levels : List (List String)),
      remaining = T.filter (fun t => decide (t ∉ levels.flatten)) →
      (∀ v ∈ T, deg v = remDegN cfg T levels.flatten v) →
      levels.flatten.Nodup →
      (∀ x ∈ levels.flatten, x ∈ T) →
      (∀ i (hi : i < levels.length), ∀ v ∈ levels.get ⟨i, hi⟩,
        ∀ d ∈ depsOf cfg v, d ∈ T → d ∈ (levels.take i).flatten) →
      (∀ L, levels_go cfg T deg remaining levels = .ok L →
        L.flatten.Nodup ∧ (∀ x, x ∈ L.flatten ↔ x ∈ T) ∧
        (∀ i (hi : i < L.length), ∀ v ∈ L.get ⟨i, hi⟩,
          ∀ d ∈ depsOf cfg v, d ∈ T → d ∈ (L.take i).flatten)) ∧
      (∀ e, levels_go cfg T deg remaining levels = .error e → HasCycle cfg T) := by
  intro deg remaining levels
  induction deg, remaining, levels using levels_go.induct cfg T with
  | case1 deg levels =>
      intro hrem hdeg hnd hsub hord
      constructor
      · intro L hL
        rw [levels_go, if_pos rfl] at hL
        injection hL with hL
        subst hL
        refine ⟨hnd, ?_, hord⟩
        intro x
        refine ⟨hsub x, ?_⟩
        intro hxT
        by_contra hxF
        have hxf : x ∈ T.filter (fun t => decide (t ∉ levels.flatten)) := by
          rw [List.mem_filter]
          exact ⟨hxT, by simpa using hxF⟩
        rw [← hrem] at hxf
        cases hxf
      · intro e hE
        rw [levels_go, if_pos rfl] at hE
        cases hE
  | case2 deg remaining levels hne hcur =>
      intro hrem hdeg hnd hsub hord
      constructor
      · intro L hL
        rw [levels_go, if_neg hne, dif_pos hcur] at hL
        cases hL
      · intro e hE
        have hstep : ∀ v ∈ remaining, ∃ d ∈ remaining, EdgeIn cfg T v d := by
          intro v hv
          have hvT : v ∈ T := by
            rw [hrem] at hv
            exact List.mem_of_mem_filter hv
          have hdz : deg v ≠ 0 := by
            intro h0
            have hvc : v ∈ current_level remaining deg := by
              rw [current_level, List.mem_filter]
              exact ⟨hv, by simpa using h0⟩
            rw [hcur] at hvc
            cases hvc
          rw [hdeg v hvT] at hdz
          have hnz := (not_iff_not.mpr (remDegN_eq_zero_iff cfg T levels.flatten v)).mp hdz
          push_neg at hnz
          obtain ⟨d, hd, hdT, hdF⟩ := hnz
          refine ⟨d, ?_, hvT, hdT, hd⟩
          rw [hrem, List.mem_filter]
          exact ⟨hdT, by simpa using hdF⟩
        obtain ⟨c, hcS, hcyc⟩ := cycle_of_all_have_step remaining hne (EdgeIn cfg T) hstep
        exact ⟨c, hcyc⟩
  | case3 deg remaining levels hne hcur ih =>
      intro hrem hdeg hnd hsub hord
      have hflat : (levels ++ [current_level remaining deg]).flatten =
          levels.flatten ++ current_level remaining deg := by
        simp
      have hremnd : remaining.Nodup := by
        rw [hrem]
        exact hTnd.filter _
      have hCnd : (current_level remaining deg).Nodup := hremnd.filter _
      have hCrem : ∀ x ∈ current_level remaining deg, x ∈ remaining :=
        fun x hx => List.mem_of_mem_filter hx
      have hCT : ∀ x ∈ current_level remaining deg, x ∈ T := by
        intro x hx
        have := hCrem x hx
        rw [hrem] at this
        exact List.mem_of_mem_filter this
      have hCF : ∀ x ∈ current_level remaining deg, x ∉ levels.flatten := by
        intro x hx
        have := hCrem x hx
        rw [hrem, List.mem_filter] at this
        simpa using this.2
      have hCz : ∀ v ∈ current_level remaining deg,
          ∀ d ∈ depsOf cfg v, d ∈ T → d ∈ levels.flatten := by
        intro v hvC d hd hdT
        have h0 : deg v = 0 := by
          rw [current_level, List.mem_filter] at hvC
          simpa using hvC.2
        rw [hdeg v (hCT v hvC)] at h0
        exact (remDegN_eq_zero_iff cfg T levels.flatten v).mp h0 d hd hdT
      have hrem2 : remaining.filter (fun t => decide (t ∉ current_level remaining deg)) =
          T.filter (fun t =>
            decide (t ∉ (levels ++ [current_level remaining deg]).flatten)) := by
        rw [hrem, List.filter_filter]
        apply List.filter_congr
        intro x _
        by_cases h1 : x ∈ levels.flatten <;>
          by_cases h2 : x ∈ current_level remaining deg <;>
          simp [hflat, h1, h2]
      have hdeg2 : ∀ v ∈ T, dec_level_deps cfg T (current_level remaining deg) deg v =
          remDegN cfg T (levels ++ [current_level remaining deg]).flatten v := by
        intro v hv
        rw [hflat]
        exact dec_level_remDeg cfg T hTnd (current_level remaining deg)
          levels.flatten deg hCnd hCT hCF hdeg v hv
      have hnd2 : (levels ++ [current_level remaining deg]).flatten.Nodup := by
        rw [hflat]
        exact hnd.append hCnd (fun a ha ha2 => hCF a ha2 ha)
      have hsub2 : ∀ x ∈ (levels ++ [current_level remaining deg]).flatten, x ∈ T := by
        rw [hflat]
        intro x hx
        rcases List.mem_append.mp hx with h | h
        · exact hsub x h
        · exact hCT x h
      have hord2 : ∀ i (hi : i < (levels ++ [current_level remaining deg]).length),
          ∀ v ∈ (levels ++ [current_level remaining deg]).get ⟨i, hi⟩,
          ∀ d ∈ depsOf cfg v, d ∈ T →
            d ∈ ((levels ++ [current_level remaining deg]).take i).flatten := by
        intro i hi v hv d hd hdT
        rw [List.length_append, List.length_singleton] at hi
        have htake : ∀ j, j ≤ levels.length →
            (levels ++ [current_level remaining deg]).take j = levels.take j := by
          intro j hj
          rw [List.take_append_eq_append_take]
          have hj0 : j - levels.length = 0 := by omega
          rw [hj0, List.take_zero, List.append_nil]
        by_cases hi2 : i < levels.length
        · have hget : (levels ++ [current_level remaining deg]).get ⟨i, by
              rw [List.length_append, List.length_singleton]; omega⟩ =
              levels.get ⟨i, hi2⟩ := List.get_append i hi2
          rw [hget] at hv
          rw [htake i (by omega)]
          exact hord i hi2 v hv d hd hdT
        · have hieq : i = levels.length := by omega
          have hget : (levels ++ [current_level remaining deg]).get ⟨i, by
              rw [List.length_append, List.length_singleton]; omega⟩ =
              current_level remaining deg := by
            rw [List.get_eq_getElem]
            subst hieq
            exact List.getElem_concat_length _ _ _ rfl _
          rw [hget] at hv
          rw [hieq, htake levels.length (le_refl _), List.take_length]
          exact hCz v hv d hd hdT
      have H := ih hrem2 hdeg2 hnd2 hsub2 hord2
      constructor
      · intro L hL
        rw [levels_go, if_neg hne, dif_neg hcur] at hL
        exact H.1 L hL
      · intro e hE
        rw [levels_go, if_neg hne, dif_neg hcur] at hE
        exact H.2 e hE

lemma hasCycle_congr (cfg : Config) (T V : List String)
    (hmem : ∀ x, x ∈ T ↔ x ∈ V) : HasCycle cfg T → HasCycle cfg V := by
  intro ⟨c, hc⟩
  refine ⟨c, hc.mono ?_⟩
  intro a b ⟨ha, hb, hd⟩
  exact ⟨(hmem a).mp ha, (hmem b).mp hb, hd⟩

lemma cycle_of_toposort_error (cfg : Config) (names V : List String)
    (hcollect : collect_required_tasks cfg names = .ok V)
    (e : String) (herr : topological_sort cfg names = .error e) :
    HasCycle cfg V := by
  obtain ⟨hVnd, hVsome, hVmem⟩ := collect_required_tasks_spec cfg names V hcollect
  obtain ⟨hRnd, hRV, hRord, hRmiss⟩ := kahn_initial_spec cfg V hVnd
  set R0 := kahn_go cfg V (V.filter (fun v => decide (in_degree_of cfg V v = 0)))
    (fun v => in_degree_of cfg V v) [] with hR0
  rw [topological_sort, hcollect] at herr
  simp only [← hR0] at herr
  by_cases hlen : R0.length = V.length
  · rw [if_neg (by omega : ¬ R0.length ≠ V.length)] at herr
    cases herr
  · have hmissing : ∃ v ∈ V, v ∉ R0 := by
      by_contra hno
      push_neg at hno
      have hle : V.length ≤ R0.length := (hVnd.subperm hno).length_le
      have hge : R0.length ≤ V.length := (hRnd.subperm hRV).length_le
      omega
    exact cycle_of_missing cfg V R0 hRmiss hmissing

/-- C1: for a valid configuration whose required transitive closure is V (as
computed by collect_required_tasks), if the required subgraph is acyclic then
calculate_execution_levels returns a plan whose levels concatenate, in order,
to exactly V — a permutation of the closure with no duplicates, so each
required task appears exactly once with no omissions — and every in-closure
dependency of a task in level i sits in some level 0..i-1; if the required
subgraph has a cycle, the function returns an error instead of a plan. -/
theorem calculate_execution_levels_spec (cfg : Config) (names V : List String)
    (hcollect : collect_required_tasks cfg names = .ok V) :
    (¬ HasCycle cfg V →
      ∃ L, calculate_execution_levels cfg names = .ok L ∧
        L.flatten.Perm V ∧ L.flatten.Nodup ∧
        (∀ i (hi : i < L.length), ∀ v ∈ L.get ⟨i, hi⟩,
          ∀ d ∈ depsOf cfg v, d ∈ V → d ∈ (L.take i).flatten)) ∧
    (HasCycle cfg V → ∃ e, calculate_execution_levels cfg names = .error e) := by
  obtain ⟨hVnd, hVsome, hVmem⟩ := collect_required_tasks_spec cfg names V hcollect
  constructor
  · intro hnc
    cases htopo : topological_sort cfg names with
    | error e =>
        exact absurd (cycle_of_toposort_error cfg names V hcollect e htopo) hnc
    | ok R =>
        obtain ⟨hRperm, hRnd, -⟩ := topological_sort_ok_spec cfg names V R hcollect htopo
        have hmemRV : ∀ x, x ∈ R ↔ x ∈ V := fun x => hRperm.mem_iff
        have hspec := levels_go_spec cfg R hRnd
          (fun v => in_degree_nat cfg R v) R []
          (by simp)
          (by
            intro v hv
            simp only [List.flatten_nil]
            exact in_degree_nat_eq_remDegN cfg R v)
          (by simp)
          (by simp)
          (by intro i hi; simp at hi)
        cases hlev : levels_go cfg R (fun v => in_degree_nat cfg R v) R [] with
        | error e =>
            exact absurd (hasCycle_congr cfg R V hmemRV (hspec.2 e hlev)) hnc
        | ok L =>
            obtain ⟨hLnd, hLmem, hLord⟩ := hspec.1 L hlev
            refine ⟨L, ?_, ?_, hLnd, ?_⟩
            · rw [calculate_execution_levels, htopo]
              exact hlev
            · have hsub1 : ∀ x ∈ L.flatten, x ∈ V :=
                fun x hx => (hmemRV x).mp ((hLmem x).mp hx)
              have hsub2 : ∀ x ∈ V, x ∈ L.flatten :=
                fun x hx => (hLmem x).mpr ((hmemRV x).mpr hx)
              exact (hLnd.subperm hsub1).perm_of_length_le (hVnd.subperm hsub2).length_le
            · intro i hi v hv d hd hdV
              exact hLord i hi v hv d hd ((hmemRV d).mpr hdV)
  · intro hc
    cases htopo : topological_sort cfg names with
    | error e =>
        refine ⟨e, ?_⟩
        rw [calculate_execution_levels, htopo]
    | ok R =>
        obtain ⟨-, -, hnc⟩ := topological_sort_ok_spec cfg names V R hcollect htopo
        exact absurd hc hnc

lemma demo_levels :
    calculate_execution_levels demoConfig ["test"] = .ok [["build"], ["test"]] := by
  rw [calculate_execution_levels, demo_toposort]
  simp [levels_go, current_level, in_degree_nat, depsOf, getTask, demoConfig,
    dec_level_deps, decNatDeps, dependents_of, Function.update, List.find?]

/-- Witness for C1 at the demo configuration: the level plan for the test task
is the two-level plan build-then-test, concatenating to the full closure with
dependencies strictly earlier. -/
theorem calculate_execution_levels_spec_witness :
    ∃ L, calculate_execution_levels demoConfig ["test"] = .ok L ∧
      L.flatten.Perm ["test", "build"] ∧ L.flatten.Nodup ∧
      (∀ i (hi : i < L.length), ∀ v ∈ L.get ⟨i, hi⟩,
        ∀ d ∈ depsOf demoConfig v, d ∈ (["test", "build"] : List String) →
          d ∈ (L.take i).flatten) := by
  apply (calculate_execution_levels_spec demoConfig ["test"] ["test", "build"]
    demo_collect).1
  intro hc
  obtain ⟨e, herr⟩ := (calculate_execution_levels_spec demoConfig ["test"]
    ["test", "build"] demo_collect).2 hc
  rw [demo_levels] at herr
  cases herr

/-- Models find_tasks_watching_file (src/src/graph.rs lines 91-107): the tasks
one of whose watch patterns glob-matches the file, in configuration order.
Glob matching (glob::Pattern::new followed by matches) is kept abstract as the
function argument glob, applied as glob pattern path; a pattern that fails to
parse is a pattern that matches nothing. -/
def find_tasks_watching_file (glob : String → String → Bool) (cfg : Config)
    (file_path : String) : List String :=
  (cfg.filter (fun p => p.2.watch.any (fun pattern => glob pattern file_path))).map
    Prod.fst

/-- One configuration scan of the get_dependent_tasks loop (src/src/graph.rs
lines 113-119), over the pair of the dependents set and the queue: every task
that lists current among its dependencies and is not yet a known dependent is
inserted into the set and pushed onto the back of the queue. -/
def scan_dependents (current : String) (ps : List (String × Task))
    (st : List String × List String) : List String × List String :=
  ps.foldl (fun st p =>
    if p.2.depends_on.contains current && decide (p.1 ∉ st.1) then
      (st.1 ++ [p.1], st.2 ++ [p.1])
    else st) st

lemma scan_dependents_measure (cfg : Config) (current : String) :
    ∀ (ps : List (String × Task)), (∀ p ∈ ps, p.1 ∈ cfg.map Prod.fst) →
      ∀ (D Q : List String),
        (scan_dependents current ps (D, Q)).2.length +
            namesNotIn cfg (scan_dependents current ps (D, Q)).1 ≤
          Q.length + namesNotIn cfg D := by
  intro ps
  induction ps with
  | nil => intro _ D Q; simp [scan_dependents]
  | cons p ps ih =>
      intro hsub D Q
      rw [scan_dependents, List.foldl_cons]
      by_cases hc : (p.2.depends_on.contains current && decide (p.1 ∉ D)) = true
      · rw [if_pos hc]
        have hrec := ih (fun q hq => hsub q (List.mem_cons_of_mem _ hq))
          (D ++ [p.1]) (Q ++ [p.1])
        rw [scan_dependents] at hrec
        refine le_trans hrec ?_
        rw [List.length_append, List.length_singleton]
        have hp1 : p.1 ∉ D := by
          have hc2 : current ∈ p.2.depends_on ∧ p.1 ∉ D := by simpa using hc
          exact hc2.2
        have := namesNotIn_insert cfg D p.1 (hsub p (List.mem_cons_self _ _)) hp1
        omega
      · rw [if_neg hc]
        have hrec := ih (fun q hq => hsub q (List.mem_cons_of_mem _ hq)) D Q
        rw [scan_dependents] at hrec
        exact hrec

lemma get_dependent_tasks_measure (cfg : Config) (c : String)
    (rest D : List String) :
    (scan_dependents c cfg (D, rest)).2.length +
        namesNotIn cfg (scan_dependents c cfg (D, rest)).1 <
      (c :: rest).length + namesNotIn cfg D := by
  have h := scan_dependents_measure cfg c cfg
    (fun p hp => List.mem_map_of_mem Prod.fst hp) D rest
  simp only [List.length_cons]
  omega

/-- Models get_dependent_tasks (src/src/graph.rs lines 109-124): breadth-first
reverse-dependency closure of the starting task.  The HashSet of dependents
and the VecDeque are modelled as lists in insertion order. -/
def get_dependent_tasks_go (cfg : Config) :
    List String → List String → List String
  | [], dependents => dependents
  | current :: rest, dependents =>
      get_dependent_tasks_go cfg
        (scan_dependents current cfg (dependents, rest)).2
        (scan_dependents current cfg (dependents, rest)).1
termination_by queue dependents => queue.length + namesNotIn cfg dependents
decreasing_by
  apply get_dependent_tasks_measure

/-- Models get_dependent_tasks (src/src/graph.rs lines 109-124). -/
def get_dependent_tasks (cfg : Config) (task_name : String) : List String :=
  get_dependent_tasks_go cfg [task_name] []

/-- Direct reverse-traversal edge: some configured pair names task a and lists
b among its dependencies. -/
def RevStep (cfg : Config) (a b : String) : Prop :=
  ∃ p ∈ cfg, p.1 = a ∧ b ∈ p.2.depends_on

lemma scan_dependents_spec (current : String) :
    ∀ (ps : List (String × Task)) (D Q : List String),
      ∃ new : List String,
        scan_dependents current ps (D, Q) = (D ++ new, Q ++ new) ∧
        (∀ x ∈ new, ∃ p ∈ ps, p.1 = x ∧ current ∈ p.2.depends_on) ∧
        (∀ p ∈ ps, current ∈ p.2.depends_on → p.1 ∈ D ++ new) ∧
        (D.Nodup → (D ++ new).Nodup) := by
  intro ps
  induction ps with
  | nil =>
      intro D Q
      refine ⟨[], by simp [scan_dependents], by simp, by simp, ?_⟩
      intro h
      simpa using h
  | cons p ps ih =>
      intro D Q
      rw [scan_dependents, List.foldl_cons]
      by_cases hc : (p.2.depends_on.contains current && decide (p.1 ∉ D)) = true
      · rw [if_pos hc]
        obtain ⟨hdep2, hnotin2⟩ : current ∈ p.2.depends_on ∧ p.1 ∉ D := by
          simpa using hc
        obtain ⟨new, heq, hsnd, hcomp, hnd⟩ := ih (D ++ [p.1]) (Q ++ [p.1])
        rw [scan_dependents] at heq
        refine ⟨p.1 :: new, ?_, ?_, ?_, ?_⟩
        · rw [heq]
          simp
        · intro x hx
          rcases List.mem_cons.mp hx with h | h
          · exact ⟨p, List.mem_cons_self _ _, h.symm, hdep2⟩
          · obtain ⟨q, hq, h1, h2⟩ := hsnd x h
            exact ⟨q, List.mem_cons_of_mem _ hq, h1, h2⟩
        · intro q hq hqdep
          rcases List.mem_cons.mp hq with h | h
          · subst h
            simp
          · have := hcomp q h hqdep
            simpa [List.append_assoc] using this
        · intro hDnd
          have h1 : (D ++ [p.1]).Nodup := by
            rw [List.nodup_append]
            exact ⟨hDnd, List.nodup_singleton _,
              fun a ha hb => hnotin2 ((List.mem_singleton.mp hb) ▸ ha)⟩
          have := hnd h1
          simpa [List.append_assoc] using this
      · rw [if_neg hc]
        obtain ⟨new, heq, hsnd, hcomp, hnd⟩ := ih D Q
        rw [scan_dependents] at heq
        refine ⟨new, heq, ?_, ?_, hnd⟩
        · intro x hx
          obtain ⟨q, hq, h1, h2⟩ := hsnd x hx
          exact ⟨q, List.mem_cons_of_mem _ hq, h1, h2⟩
        · intro q hq hqdep
          rcases List.mem_cons.mp hq with h | h
          · have hin : q.1 ∈ D := by
              by_contra hpd
              rw [h] at hqdep hpd
              apply hc
              simp [hqdep, hpd]
            exact List.mem_append.mpr (Or.inl hin)
          · exact hcomp q h hqdep

lemma get_dependent_tasks_go_spec (cfg : Config) (m : String) :
    ∀ (queue dependents : List String),
      dependents.Nodup →
      (∀ d ∈ dependents, Relation.TransGen (RevStep cfg) d m) →
      (∀ q ∈ queue, Relation.ReflTransGen (RevStep cfg) q m) →
      (∀ n c, RevStep cfg n c → (c ∈ dependents ∨ c = m) → c ∉ queue →
        n ∈ dependents) →
      (get_dependent_tasks_go cfg queue dependents).Nodup ∧
      (∀ x ∈ get_dependent_tasks_go cfg queue dependents,
        x ∈ dependents ∨ Relation.TransGen (RevStep cfg) x m) ∧
      (∀ x ∈ dependents, x ∈ get_dependent_tasks_go cfg queue dependents) ∧
      (∀ x, Relation.TransGen (RevStep cfg) x m →
        x ∈ get_dependent_tasks_go cfg queue dependents) := by
  intro queue dependents
  induction queue, dependents using get_dependent_tasks_go.induct cfg with
  | case1 dependents =>
      intro hnd hsound hqueue hclosed
      rw [get_dependent_tasks_go]
      refine ⟨hnd, fun x hx => Or.inl hx, fun x hx => hx, ?_⟩
      intro x hx
      induction hx using Relation.TransGen.head_induction_on with
      | base h => exact hclosed _ m h (Or.inr rfl) (List.not_mem_nil m)
      | ih h1 h2 ih => exact hclosed _ _ h1 (Or.inl ih) (List.not_mem_nil _)
  | case2 current rest dependents ih =>
      intro hnd hsound hqueue hclosed
      rw [get_dependent_tasks_go]
      obtain ⟨new, heq, hnew_src, hnew_comp, hnew_nd⟩ :=
        scan_dependents_spec current cfg dependents rest
      simp only [heq] at ih ⊢
      have hcurq : Relation.ReflTransGen (RevStep cfg) current m :=
        hqueue current (List.mem_cons_self _ _)
      have hnew_tg : ∀ x ∈ new, Relation.TransGen (RevStep cfg) x m := by
        intro x hx
        obtain ⟨p, hp, hpx, hpd⟩ := hnew_src x hx
        exact Relation.TransGen.head' ⟨p, hp, hpx, hpd⟩ hcurq
      have H := ih (hnew_nd hnd)
        (by
          intro d hd
          rcases List.mem_append.mp hd with h | h
          · exact hsound d h
          · exact hnew_tg d h)
        (by
          intro q hq
          rcases List.mem_append.mp hq with h | h
          · exact hqueue q (List.mem_cons_of_mem _ h)
          · exact (hnew_tg q h).to_reflTransGen)
        (by
          intro n c hrs hcin hcq
          by_cases hcc : c = current
          · subst hcc
            obtain ⟨p, hp, hpn, hpd⟩ := hrs
            have := hnew_comp p hp hpd
            rw [hpn] at this
            exact this
          · have hcrest : c ∉ rest := fun h =>
              hcq (List.mem_append.mpr (Or.inl h))
            have hcnew : c ∉ new := fun h =>
              hcq (List.mem_append.mpr (Or.inr h))
            have hcd : c ∈ dependents ∨ c = m := by
              rcases hcin with h | h
              · rcases List.mem_append.mp h with h2 | h2
                · exact Or.inl h2
                · exact absurd h2 hcnew
              · exact Or.inr h
            have := hclosed n c hrs hcd (by
              intro h
              rcases List.mem_cons.mp h with h2 | h2
              · exact hcc h2
              · exact hcrest h2)
            exact List.mem_append.mpr (Or.inl this))
      refine ⟨H.1, ?_, ?_, H.2.2.2⟩
      · intro x hx
        rcases H.2.1 x hx with h | h
        · rcases List.mem_append.mp h with h2 | h2
          · exact Or.inl h2
          · exact Or.inr (hnew_tg x h2)
        · exact Or.inr h
      · intro x hx
        exact H.2.2.1 x (List.mem_append.mpr (Or.inl hx))

lemma get_dependent_tasks_spec (cfg : Config) (m : String) :
    (get_dependent_tasks cfg m).Nodup ∧
    (∀ x, x ∈ get_dependent_tasks cfg m ↔ Relation.TransGen (RevStep cfg) x m) := by
  have h := get_dependent_tasks_go_spec cfg m [m] []
    List.nodup_nil
    (by intro d hd; cases hd)
    (by
      intro q hq
      rw [List.mem_singleton] at hq
      subst hq
      exact Relation.ReflTransGen.refl)
    (by
      intro n c hrs hc hcq
      rcases hc with h | h
      · cases h
      · exact absurd (by rw [h]; exact List.mem_singleton_self m) hcq)
  rw [get_dependent_tasks]
  refine ⟨h.1, fun x => ⟨?_, h.2.2.2 x⟩⟩
  intro hx
  exact (h.2.1 x hx).resolve_left (List.not_mem_nil x)

/-- HashSet-style insertion into an insertion-ordered list model of a set. -/
def set_insert (x : String) (s : List String) : List String :=
  if x ∈ s then s else s ++ [x]

/-- HashSet extend: insertion folded over the added collection. -/
def set_extend (s : List String) (xs : List String) : List String :=
  xs.foldl (fun s x => set_insert x s) s

lemma set_insert_mem (x y : String) (s : List String) :
    y ∈ set_insert x s ↔ y = x ∨ y ∈ s := by
  rw [set_insert]
  by_cases h : x ∈ s
  · rw [if_pos h]
    constructor
    · exact Or.inr
    · rintro (rfl | hy)
      exacts [h, hy]
  · rw [if_neg h]
    simp [List.mem_append, or_comm]

lemma set_insert_nodup (x : String) (s : List String) (h : s.Nodup) :
    (set_insert x s).Nodup := by
  rw [set_insert]
  by_cases hx : x ∈ s
  · rw [if_pos hx]
    exact h
  · rw [if_neg hx]
    rw [List.nodup_append]
    exact ⟨h, List.nodup_singleton _,
      fun a ha hb => hx ((List.mem_singleton.mp hb) ▸ ha)⟩

lemma set_extend_mem (xs : List String) :
    ∀ (s : List String) (y : String), y ∈ set_extend s xs ↔ y ∈ s ∨ y ∈ xs := by
  induction xs with
  | nil => intro s y; simp [set_extend]
  | cons x xs ih =>
      intro s y
      rw [set_extend, List.foldl_cons]
      have h2 := ih (set_insert x s) y
      rw [set_extend] at h2
      rw [h2, set_insert_mem]
      simp only [List.mem_cons]
      tauto

lemma set_extend_nodup (xs : List String) :
    ∀ (s : List String), s.Nodup → (set_extend s xs).Nodup := by
  induction xs with
  | nil => intro s h; simpa [set_extend] using h
  | cons x xs ih =>
      intro s h
      rw [set_extend, List.foldl_cons]
      have h2 := ih (set_insert x s) (set_insert_nodup x s h)
      rw [set_extend] at h2
      exact h2

/-- The watch-pattern pass of find_affected_tasks_from_files
(src/src/graph/affected.rs lines 33-45): for every changed file, every task
watching it is inserted together with all its transitive dependents. -/
def affected_watch_pass (glob : String → String → Bool) (cfg : Config)
    (changed_files : List String) : List String :=
  changed_files.foldl (fun affected file =>
    (find_tasks_watching_file glob cfg file).foldl (fun affected task_name =>
      set_extend (set_insert task_name affected)
        (get_dependent_tasks cfg task_name)) affected) []

/-- The input-pattern pass of find_affected_tasks_from_files
(src/src/graph/affected.rs lines 47-61): every task one of whose input
patterns glob-matches some changed file is inserted together with all its
transitive dependents. -/
def affected_inputs_pass (glob : String → String → Bool) (cfg : Config)
    (changed_files : List String) (affected0 : List String) : List String :=
  cfg.foldl (fun affected p =>
    p.2.inputs.foldl (fun affected input =>
      if changed_files.any (fun file => glob input file) then
        set_extend (set_insert p.1 affected) (get_dependent_tasks cfg p.1)
      else affected) affected) affected0

/-- Models find_affected_tasks_from_files (src/src/graph/affected.rs lines
26-66): the watch pass, then the inputs pass, then the sorted list of the
accumulated set.  The Rust function always returns Ok, so the Result wrapper
is dropped. -/
def find_affected_tasks_from_files (glob : String → String → Bool) (cfg : Config)
    (changed_files : List String) : List String :=
  sortStrings (affected_inputs_pass glob cfg changed_files
    (affected_watch_pass glob cfg changed_files))

lemma add_dependents_fold_mem (cfg : Config) :
    ∀ (W acc : List String) (x : String),
      x ∈ W.foldl (fun affected n =>
          set_extend (set_insert n affected) (get_dependent_tasks cfg n)) acc ↔
        x ∈ acc ∨ ∃ n ∈ W, x = n ∨ x ∈ get_dependent_tasks cfg n := by
  intro W
  induction W with
  | nil => intro acc x; simp
  | cons n W ih =>
      intro acc x
      rw [List.foldl_cons, ih, set_extend_mem, set_insert_mem]
      simp only [List.mem_cons]
      constructor
      · rintro (((h | h) | h) | ⟨q, hq, h⟩)
        · exact Or.inr ⟨n, Or.inl rfl, Or.inl h⟩
        · exact Or.inl h
        · exact Or.inr ⟨n, Or.inl rfl, Or.inr h⟩
        · exact Or.inr ⟨q, Or.inr hq, h⟩
      · rintro (h | ⟨q, (rfl | hq), h⟩)
        · exact Or.inl (Or.inl (Or.inr h))
        · rcases h with h | h
          · exact Or.inl (Or.inl (Or.inl h))
          · exact Or.inl (Or.inr h)
        · exact Or.inr ⟨q, hq, h⟩

lemma add_dependents_fold_nodup (cfg : Config) :
    ∀ (W acc : List String), acc.Nodup →
      (W.foldl (fun affected n =>
          set_extend (set_insert n affected) (get_dependent_tasks cfg n)) acc).Nodup := by
  intro W
  induction W with
  | nil => intro acc h; simpa using h
  | cons n W ih =>
      intro acc h
      rw [List.foldl_cons]
      exact ih _ (set_extend_nodup _ _ (set_insert_nodup n acc h))

lemma affected_watch_fold_mem (glob : String → String → Bool) (cfg : Config) :
    ∀ (files acc : List String) (x : String),
      x ∈ files.foldl (fun affected file =>
          (find_tasks_watching_file glob cfg file).foldl (fun affected n =>
            set_extend (set_insert n affected)
              (get_dependent_tasks cfg n)) affected) acc ↔
        x ∈ acc ∨ ∃ f ∈ files, ∃ n ∈ find_tasks_watching_file glob cfg f,
          x = n ∨ x ∈ get_dependent_tasks cfg n := by
  intro files
  induction files with
  | nil => intro acc x; simp
  | cons f files ih =>
      intro acc x
      rw [List.foldl_cons, ih, add_dependents_fold_mem]
      simp only [List.mem_cons]
      constructor
      · rintro ((h | ⟨n, hn, h⟩) | ⟨g, hg, hrest⟩)
        · exact Or.inl h
        · exact Or.inr ⟨f, Or.inl rfl, n, hn, h⟩
        · exact Or.inr ⟨g, Or.inr hg, hrest⟩
      · rintro (h | ⟨g, (rfl | hg), hrest⟩)
        · exact Or.inl (Or.inl h)
        · exact Or.inl (Or.inr hrest)
        · exact Or.inr ⟨g, hg, hrest⟩

lemma affected_watch_fold_nodup (glob : String → String → Bool) (cfg : Config) :
    ∀ (files acc : List String), acc.Nodup →
      (files.foldl (fun affected file =>
          (find_tasks_watching_file glob cfg file).foldl (fun affected n =>
            set_extend (set_insert n affected)
              (get_dependent_tasks cfg n)) affected) acc).Nodup := by
  intro files
  induction files with
  | nil => intro acc h; simpa using h
  | cons f files ih =>
      intro acc h
      rw [List.foldl_cons]
      exact ih _ (add_dependents_fold_nodup cfg _ acc h)

lemma inputs_fold_mem (glob : String → String → Bool) (cfg : Config)
    (changed_files : List String) (name : String) :
    ∀ (ins acc : List String) (x : String),
      x ∈ ins.foldl (fun affected input =>
          if changed_files.any (fun file => glob input file) then
            set_extend (set_insert name affected) (get_dependent_tasks cfg name)
          else affected) acc ↔
        x ∈ acc ∨
          ((∃ input ∈ ins, changed_files.any (fun file => glob input file) = true) ∧
            (x = name ∨ x ∈ get_dependent_tasks cfg name)) := by
  intro ins
  induction ins with
  | nil => intro acc x; simp
  | cons input ins ih =>
      intro acc x
      rw [List.foldl_cons]
      by_cases hc : changed_files.any (fun file => glob input file) = true
      · rw [if_pos hc, ih, set_extend_mem, set_insert_mem]
        simp only [List.mem_cons]
        constructor
        · rintro (((h | h) | h) | ⟨-, h⟩)
          · exact Or.inr ⟨⟨input, Or.inl rfl, hc⟩, Or.inl h⟩
          · exact Or.inl h
          · exact Or.inr ⟨⟨input, Or.inl rfl, hc⟩, Or.inr h⟩
          · exact Or.inr ⟨⟨input, Or.inl rfl, hc⟩, h⟩
        · rintro (h | ⟨-, h⟩)
          · exact Or.inl (Or.inl (Or.inr h))
          · rcases h with h | h
            · exact Or.inl (Or.inl (Or.inl h))
            · exact Or.inl (Or.inr h)
      · rw [if_neg hc, ih]
        constructor
        · rintro (h | ⟨⟨i, hi, hitrue⟩, h⟩)
          · exact Or.inl h
          · exact Or.inr ⟨⟨i, List.mem_cons_of_mem _ hi, hitrue⟩, h⟩
        · rintro (h | ⟨⟨i, hi, hitrue⟩, h⟩)
          · exact Or.inl h
          · rcases List.mem_cons.mp hi with h2 | h2
            · exact absurd (h2 ▸ hitrue) hc
            · exact Or.inr ⟨⟨i, h2, hitrue⟩, h⟩

lemma inputs_fold_nodup (glob : String → String → Bool) (cfg : Config)
    (changed_files : List String) (name : String) :
    ∀ (ins acc : List String), acc.Nodup →
      (ins.foldl (fun affected input =>
          if changed_files.any (fun file => glob input file) then
            set_extend (set_insert name affected) (get_dependent_tasks cfg name)
          else affected) acc).Nodup := by
  intro ins
  induction ins with
  | nil => intro acc h; simpa using h
  | cons input ins ih =>
      intro acc h
      rw [List.foldl_cons]
      by_cases hc : changed_files.any (fun file => glob input file) = true
      · rw [if_pos hc]
        exact ih _ (set_extend_nodup _ _ (set_insert_nodup name acc h))
      · rw [if_neg hc]
        exact ih _ h

lemma affected_inputs_fold_mem (glob : String → String → Bool) (cfg : Config)
    (changed_files : List String) :
    ∀ (ps : List (String × Task)) (acc : List String) (x : String),
      x ∈ ps.foldl (fun affected p =>
          p.2.inputs.foldl (fun affected input =>
            if changed_files.any (fun file => glob input file) then
              set_extend (set_insert p.1 affected) (get_dependent_tasks cfg p.1)
            else affected) affected) acc ↔
        x ∈ acc ∨ ∃ p ∈ ps,
          (∃ input ∈ p.2.inputs,
            changed_files.any (fun file => glob input file) = true) ∧
          (x = p.1 ∨ x ∈ get_dependent_tasks cfg p.1) := by
  intro ps
  induction ps with
  | nil => intro acc x; simp
  | cons p ps ih =>
      intro acc x
      rw [List.foldl_cons, ih, inputs_fold_mem]
      simp only [List.mem_cons]
      constructor
      · rintro ((h | h) | ⟨q, hq, hrest⟩)
        · exact Or.inl h
        · exact Or.inr ⟨p, Or.inl rfl, h⟩
        · exact Or.inr ⟨q, Or.inr hq, hrest⟩
      · rintro (h | ⟨q, (rfl | hq), hrest⟩)
        · exact Or.inl (Or.inl h)
        · exact Or.inl (Or.inr hrest)
        · exact Or.inr ⟨q, hq, hrest⟩

lemma affected_inputs_fold_nodup (glob : String → String → Bool) (cfg : Config)
    (changed_files : List String) :
    ∀ (ps : List (String × Task)) (acc : List String), acc.Nodup →
      (ps.foldl (fun affected p =>
          p.2.inputs.foldl (fun affected input =>
            if changed_files.any (fun file => glob input file) then
              set_extend (set_insert p.1 affected) (get_dependent_tasks cfg p.1)
            else affected) affected) acc).Nodup := by
  intro ps
  induction ps with
  | nil => intro acc h; simpa using h
  | cons p ps ih =>
      intro acc h
      rw [List.foldl_cons]
      exact ih _ (inputs_fold_nodup glob cfg changed_files p.1 _ acc h)

lemma find_tasks_watching_file_mem (glob : String → String → Bool) (cfg : Config)
    (f n : String) :
    n ∈ find_tasks_watching_file glob cfg f ↔
      ∃ p ∈ cfg, p.1 = n ∧ p.2.watch.any (fun pattern => glob pattern f) = true := by
  rw [find_tasks_watching_file]
  simp only [List.mem_map, List.mem_filter]
  constructor
  · rintro ⟨p, ⟨hp, hw⟩, hn⟩
    exact ⟨p, hp, hn, hw⟩
  · rintro ⟨p, hp, hn, hw⟩
    exact ⟨p, ⟨hp, hw⟩, hn⟩

/-- C9: for every list of changed file paths, find_affected_tasks_from_files
returns a sorted, duplicate-free list of task names, and a name t is in it
exactly when some configured task p matches a change — some changed file
glob-matches one of its watch patterns, or one of its input patterns
glob-matches some changed file — and t either is p or transitively depends on
p through depends_on (the reverse-edge traversal of get_dependent_tasks);
consequently when no task's watch or input patterns match any changed file the
result is empty. -/
theorem find_affected_tasks_from_files_spec (glob : String → String → Bool)
    (cfg : Config) (changed_files : List String) :
    List.Sorted (fun a b : String => a ≤ b)
      (find_affected_tasks_from_files glob cfg changed_files) ∧
    (find_affected_tasks_from_files glob cfg changed_files).Nodup ∧
    (∀ t, t ∈ find_affected_tasks_from_files glob cfg changed_files ↔
      ∃ p ∈ cfg,
        ((∃ file ∈ changed_files,
            p.2.watch.any (fun pattern => glob pattern file) = true) ∨
          (∃ input ∈ p.2.inputs,
            changed_files.any (fun file => glob input file) = true)) ∧
        (t = p.1 ∨ Relation.TransGen (RevStep cfg) t p.1)) ∧
    ((∀ p ∈ cfg,
        (∀ file ∈ changed_files,
          p.2.watch.any (fun pattern => glob pattern file) = false) ∧
        (∀ input ∈ p.2.inputs,
          changed_files.any (fun file => glob input file) = false)) →
      find_affected_tasks_from_files glob cfg changed_files = []) := by
  have hAnd : (affected_inputs_pass glob cfg changed_files
      (affected_watch_pass glob cfg changed_files)).Nodup := by
    rw [affected_inputs_pass]
    apply affected_inputs_fold_nodup
    rw [affected_watch_pass]
    exact affected_watch_fold_nodup glob cfg changed_files [] List.nodup_nil
  have hAmem : ∀ x, x ∈ affected_inputs_pass glob cfg changed_files
      (affected_watch_pass glob cfg changed_files) ↔
      ∃ p ∈ cfg,
        ((∃ file ∈ changed_files,
            p.2.watch.any (fun pattern => glob pattern file) = true) ∨
          (∃ input ∈ p.2.inputs,
            changed_files.any (fun file => glob input file) = true)) ∧
        (x = p.1 ∨ Relation.TransGen (RevStep cfg) x p.1) := by
    intro x
    rw [affected_inputs_pass, affected_inputs_fold_mem, affected_watch_pass,
      affected_watch_fold_mem]
    constructor
    · rintro ((h | ⟨f, hf, n, hn, hx⟩) | ⟨p, hp, hin, hx⟩)
      · cases h
      · obtain ⟨p, hp, hpn, hw⟩ := (find_tasks_watching_file_mem glob cfg f n).mp hn
        refine ⟨p, hp, Or.inl ⟨f, hf, hw⟩, ?_⟩
        rw [hpn]
        rcases hx with h | h
        · exact Or.inl h
        · exact Or.inr (((get_dependent_tasks_spec cfg n).2 x).mp h)
      · refine ⟨p, hp, Or.inr hin, ?_⟩
        rcases hx with h | h
        · exact Or.inl h
        · exact Or.inr (((get_dependent_tasks_spec cfg p.1).2 x).mp h)
    · rintro ⟨p, hp, hmatch, hx⟩
      have hx2 : x = p.1 ∨ x ∈ get_dependent_tasks cfg p.1 := by
        rcases hx with h | h
        · exact Or.inl h
        · exact Or.inr (((get_dependent_tasks_spec cfg p.1).2 x).mpr h)
      rcases hmatch with ⟨f, hf, hw⟩ | hin
      · refine Or.inl (Or.inr ⟨f, hf, p.1, ?_, hx2⟩)
        exact (find_tasks_watching_file_mem glob cfg f p.1).mpr ⟨p, hp, rfl, hw⟩
      · exact Or.inr ⟨p, hp, hin, hx2⟩
  have hperm : (find_affected_tasks_from_files glob cfg changed_files).Perm
      (affected_inputs_pass glob cfg changed_files
        (affected_watch_pass glob cfg changed_files)) := by
    rw [find_affected_tasks_from_files, sortStrings]
    exact List.perm_insertionSort _ _
  refine ⟨?_, hperm.nodup_iff.mpr hAnd, ?_, ?_⟩
  · rw [find_affected_tasks_from_files, sortStrings]
    haveI : IsTotal String (fun a b : String => a ≤ b) := ⟨fun a b => le_total a b⟩
    haveI : IsTrans String (fun a b : String => a ≤ b) :=
      ⟨fun a b c h1 h2 => le_trans h1 h2⟩
    exact List.sorted_insertionSort _ _
  · intro t
    rw [hperm.mem_iff]
    exact hAmem t
  · intro hnone
    rw [List.eq_nil_iff_forall_not_mem]
    intro t ht
    rw [hperm.mem_iff, hAmem t] at ht
    obtain ⟨p, hp, hmatch, -⟩ := ht
    rcases hmatch with ⟨f, hf, hw⟩ | ⟨i, hi, hin⟩
    · rw [(hnone p hp).1 f hf] at hw
      cases hw
    · rw [(hnone p hp).2 i hi] at hin
      cases hin

/-- Witness for C9 at the demo configuration with exact-match globbing: a
change to the watched source resolves to a set containing the dependent test
task, and a change matching no pattern resolves to the empty list. -/
theorem find_affected_tasks_from_files_spec_witness :
    "test" ∈ find_affected_tasks_from_files (fun pattern file => pattern == file)
      demoConfig ["src/x.rs"] ∧
    find_affected_tasks_from_files (fun pattern file => pattern == file)
      demoConfig ["README.md"] = [] := by
  have h1 := find_affected_tasks_from_files_spec (fun pattern file => pattern == file)
    demoConfig ["src/x.rs"]
  have h2 := find_affected_tasks_from_files_spec (fun pattern file => pattern == file)
    demoConfig ["README.md"]
  constructor
  · apply (h1.2.2.1 "test").mpr
    refine ⟨("build",
      { cmd := "cargo build", cwd := none, watch := ["src/x.rs"], depends_on := [],
        background := false, category := none, retry := 0, retry_delay_ms := 0,
        env := [], inputs := [] }), ?_, ?_, ?_⟩
    · rw [demoConfig]
      exact List.mem_cons_self _ _
    · exact Or.inl ⟨"src/x.rs", List.mem_singleton_self _, by decide⟩
    · refine Or.inr (Relation.TransGen.single ?_)
      refine ⟨("test",
        { cmd := "cargo test", cwd := none, watch := [], depends_on := ["build"],
          background := false, category := none, retry := 0, retry_delay_ms := 0,
          env := [], inputs := [] }), ?_, rfl, ?_⟩
      · rw [demoConfig]
        exact List.mem_cons_of_mem _ (List.mem_cons_self _ _)
      · exact List.mem_singleton_self _
  · apply h2.2.2.2
    intro p hp
    rw [demoConfig] at hp
    rcases List.mem_cons.mp hp with h | h
    · subst h
      exact ⟨by decide, by decide⟩
    · rw [List.mem_singleton] at h
      subst h
      exact ⟨by decide, by decide⟩

end Runx
